import Mathlib

/-!
Verification of the post-enrichment pipeline of the hashtag-analysis
repository: a shallow embedding of the record data model (Python dicts over
string keys), the caption cleaner (`src/cleaner.py`), the sentiment stage
(`src/sentiment.py`), the keyword stage (`src/keywords.py`), the collectors
(`app/app.py` and `src/instaloader_scraper_deprecated.py`) and the pipeline
orchestrator (`app/app.py::run_pipeline`), together with proofs and
refutations of the specification's claims about them.
-/

namespace InstaPipe

/-- A Python value as it occurs in the post records of this pipeline:
strings (captions, labels, dates), integers (likes, the transient `index`
field), floats (sentiment scores, embedded as exact rationals), lists of
strings (keywords) and `None`. -/
inductive PyVal where
  | str : String → PyVal
  | int : Int → PyVal
  | rat : Rat → PyVal
  | strList : List String → PyVal
  | none : PyVal
  deriving DecidableEq, Repr

/-- A post record: a Python dict with string keys, embedded as an
insertion-ordered association list (Python dicts preserve insertion order;
updating an existing key keeps its position). -/
abbrev Dict := List (String × PyVal)

/-- `d.get(k)` / `d[k]` lookup: the value at key `k`, if present. -/
def dget? (d : Dict) (k : String) : Option PyVal :=
  match d with
  | [] => Option.none
  | (k', v) :: rest => if k' = k then some v else dget? rest k

/-- `d.get(k, default)`. -/
def dgetD (d : Dict) (k : String) (v : PyVal) : PyVal :=
  (dget? d k).getD v

/-- `d[k] = v`: overwrite in place if the key exists (keeping its position,
as Python dicts do), otherwise append the new key at the end. -/
def dset (d : Dict) (k : String) (v : PyVal) : Dict :=
  match d with
  | [] => [(k, v)]
  | (k', v') :: rest => if k' = k then (k, v) :: rest else (k', v') :: dset rest k v

/-- `d.pop(k, None)`: remove the key `k` if present. -/
def dpop (d : Dict) (k : String) : Dict :=
  match d with
  | [] => []
  | (k', v) :: rest => if k' = k then dpop rest k else (k', v) :: dpop rest k

/-- The key set of a record (as an ordered list). -/
def dkeys (d : Dict) : List String := d.map Prod.fst

/-- `⟨dict literal with updates⟩`: fold the entries of `upd` into `base`
with Python's update semantics; `{**a, **b}` is `dmerge a b` and
`{'k': v, **b}` is `dmerge [("k", v)] b`. -/
def dmerge (base upd : Dict) : Dict :=
  upd.foldl (fun d e => dset d e.1 e.2) base

/-! ### Character classes of `src/cleaner.py`

The cleaner works on Unicode code points; each regex character class is
embedded as a predicate on `Char`. -/

/-- Python `\s` (the whitespace class used by `\s+`, `\S` and `str.strip`),
modelled by the common ASCII whitespace characters space, tab, newline,
carriage return, vertical tab and form feed. -/
def isSpacePy (c : Char) : Bool :=
  decide (c.toNat = 32) || decide (c.toNat = 9) || decide (c.toNat = 10) ||
  decide (c.toNat = 13) || decide (c.toNat = 11) || decide (c.toNat = 12)

/-- Python `\w`, modelled by ASCII alphanumerics and underscore.  (Python's
Unicode `\w` also covers all other letter scripts; Korean, the script this
pipeline targets, is covered by the explicit Hangul ranges of the regex,
embedded separately below.) -/
def isWordPy (c : Char) : Bool :=
  (decide (48 ≤ c.toNat) && decide (c.toNat ≤ 57)) ||
  (decide (65 ≤ c.toNat) && decide (c.toNat ≤ 90)) ||
  (decide (97 ≤ c.toNat) && decide (c.toNat ≤ 122)) ||
  decide (c.toNat = 95)

/-- The regex range `가-힣` (Hangul syllables U+AC00–U+D7A3). -/
def isHangulSyl (c : Char) : Bool :=
  decide (0xAC00 ≤ c.toNat) && decide (c.toNat ≤ 0xD7A3)

/-- The regex range `ㄱ-ㅎ` (Hangul compatibility consonants U+3131–U+314E). -/
def isJamoCons (c : Char) : Bool :=
  decide (0x3131 ≤ c.toNat) && decide (c.toNat ≤ 0x314E)

/-- The regex range `ㅏ-ㅣ` (Hangul compatibility vowels U+314F–U+3163). -/
def isJamoVowel (c : Char) : Bool :=
  decide (0x314F ≤ c.toNat) && decide (c.toNat ≤ 0x3163)

/-- The punctuation kept by the cleaner's whitelist: `. , ! ? ~ -`. -/
def isPunctKeep (c : Char) : Bool :=
  decide (c.toNat = 46) || decide (c.toNat = 44) || decide (c.toNat = 33) ||
  decide (c.toNat = 63) || decide (c.toNat = 126) || decide (c.toNat = 45)

/-- The whitelist of cleaner step 5, `[^\w\s가-힣ㄱ-ㅎㅏ-ㅣ.,!?~\-]`:
a character survives iff it matches one of the listed classes. -/
def wlChar (c : Char) : Bool :=
  isWordPy c || isSpacePy c || isHangulSyl c || isJamoCons c ||
  isJamoVowel c || isPunctKeep c

/-- `emoji.replace_emoji(text, replace='')` of cleaner step 4: the external
`emoji` library, modelled as removal of the characters in the main Unicode
emoji blocks (Supplemental Symbols, Misc Symbols and Dingbats, arrows and
symbols block U+2B00–U+2BFF, and the emoji variation selector U+FE0F). -/
def isEmojiChar (c : Char) : Bool :=
  (decide (0x1F000 ≤ c.toNat) && decide (c.toNat ≤ 0x1FAFF)) ||
  (decide (0x2600 ≤ c.toNat) && decide (c.toNat ≤ 0x27BF)) ||
  (decide (0x2B00 ≤ c.toNat) && decide (c.toNat ≤ 0x2BFF)) ||
  decide (c.toNat = 0xFE0F)

/-- The repetition-prone set of cleaner step 6, `[ㅋㅎ!?~.]`. -/
def cleanRep (c : Char) : Bool :=
  c == 'ㅋ' || c == 'ㅎ' || c == '!' || c == '?' || c == '~' || c == '.'

/-- The repetition-prone set of `preprocess_text` in `src/sentiment.py`,
`[!?.]`. -/
def preRep (c : Char) : Bool :=
  c == '!' || c == '?' || c == '.'

/-! ### The regex passes of `clean_caption`, embedded on `List Char` -/

/-- Is the head a non-space character?  (`\S` must match at least once.) -/
def nonSpaceHead (l : List Char) : Bool :=
  match l with
  | [] => false
  | d :: _ => !isSpacePy d

/-- `re.sub(r"#\\S+", "", ·)` and `re.sub(r"@\\S+", "", ·)` (cleaner steps 1
and 2): at each occurrence of the marker followed by at least one non-space
character, drop the marker and the maximal non-space run after it. -/
def subMarkGo (mark : Char) (skip : Bool) (l : List Char) : List Char :=
  match skip, l with
  | _, [] => []
  | true, c :: cs =>
    if isSpacePy c then c :: subMarkGo mark false cs else subMarkGo mark true cs
  | false, c :: cs =>
    if c == mark && nonSpaceHead cs then subMarkGo mark true cs
    else c :: subMarkGo mark false cs

def subMark (mark : Char) (l : List Char) : List Char :=
  subMarkGo mark false l

/-- Does `l` start with the given character sequence? -/
def startsWithL (l pat : List Char) : Bool :=
  match l, pat with
  | _, [] => true
  | [], _ :: _ => false
  | c :: cs, d :: ds => c == d && startsWithL cs ds

/-- The length of a leftmost match of `http[s]?://\\S+|www\\.\\S+`s scheme
part starting exactly at the head of `l`, if the whole alternative can
match here (the scheme characters plus at least one following non-space
character).  The alternatives are tried the way the backtracking engine
does. -/
def urlSchemeLen? (l : List Char) : Option Nat :=
  if startsWithL l [ 'h', 't', 't', 'p', 's', ':', '/', '/' ] &&
      nonSpaceHead (l.drop 8) then some 8
  else if startsWithL l [ 'h', 't', 't', 'p', ':', '/', '/' ] &&
      nonSpaceHead (l.drop 7) then some 7
  else if startsWithL l [ 'w', 'w', 'w', '.' ] && nonSpaceHead (l.drop 4) then
    some 4
  else Option.none

/-- `re.sub(r"http[s]?://\\S+|www\\.\\S+", "", ·)` (cleaner step 3, first
substitution): scan left to right; on a match, drop the scheme characters
(`drop` counts how many are left) and then the maximal non-space run. -/
def subUrlGo (drop : Nat) (skip : Bool) (l : List Char) : List Char :=
  match l with
  | [] => []
  | c :: cs =>
    match drop with
    | n + 1 => subUrlGo n skip cs
    | 0 =>
      if skip then
        if isSpacePy c then c :: subUrlGo 0 false cs else subUrlGo 0 true cs
      else
        match urlSchemeLen? (c :: cs) with
        | some k => subUrlGo (k - 1) true cs
        | Option.none => c :: subUrlGo 0 false cs

def subUrl (l : List Char) : List Char :=
  subUrlGo 0 false l

/-- The TLD alternatives of cleaner step 3's second pattern,
`(com|kr|net|org|co\\.kr)`, tried at a given position. -/
def hasTldAt (l : List Char) : Bool :=
  startsWithL l [ 'c', 'o', 'm' ] || startsWithL l [ 'k', 'r' ] ||
  startsWithL l [ 'n', 'e', 't' ] || startsWithL l [ 'o', 'r', 'g' ] ||
  startsWithL l [ 'c', 'o', '.', 'k', 'r' ]

/-- Scan the tail of a non-space run for a dot followed by a TLD
alternative (the `\\.(com|kr|net|org|co\\.kr)` part of the domain pattern;
the dot must sit at offset ≥ 1 because `\\S+` needs at least one character
before it). -/
def hasTldAfterDot (l : List Char) : Bool :=
  match l with
  | [] => false
  | c :: cs => (c == '.' && hasTldAt cs) || hasTldAfterDot cs

/-- `re.sub(r"\\S+\\.(com|kr|net|org|co\\.kr)\\S*", "", ·)` (cleaner step 3,
second substitution).  A leftmost match starting at a non-space character
`c` exists iff the rest of its non-space run contains a dot followed by a
TLD alternative; since the trailing `\\S*` is greedy, the whole run is then
removed. -/
def subDomainGo (skip : Bool) (l : List Char) : List Char :=
  match skip, l with
  | _, [] => []
  | true, c :: cs =>
    if isSpacePy c then c :: subDomainGo false cs else subDomainGo true cs
  | false, c :: cs =>
    if !isSpacePy c && hasTldAfterDot (cs.takeWhile (fun d => !isSpacePy d)) then
      subDomainGo true cs
    else c :: subDomainGo false cs

def subDomain (l : List Char) : List Char :=
  subDomainGo false l

/-- `emoji.replace_emoji(text, replace='')` (cleaner step 4). -/
def deEmoji (l : List Char) : List Char :=
  l.filter (fun c => !isEmojiChar c)

/-- Cleaner step 5: delete every character outside the whitelist. -/
def wlFilter (l : List Char) : List Char :=
  l.filter wlChar

/-- One maximal run, flushed: a run of `cnt` copies of `cur` collapses to
`k` copies when it has length ≥ 3 and `cur` is repetition-prone, and is
kept verbatim otherwise. -/
def flushRun (isR : Char → Bool) (k : Nat) (cur : Char) (cnt : Nat) : List Char :=
  if isR cur && decide (3 ≤ cnt) then List.replicate k cur
  else List.replicate cnt cur

/-- `re.sub(r"(X)\\1{2,}", replacement, ·)` for a character set `X` of
repetition-prone characters (cleaner step 6 with `X = [ㅋㅎ!?~.]` and two
copies kept; `preprocess_text` with `X = [!?.]` and one copy kept): scan
while counting the current maximal run of equal characters, flushing each
finished run. -/
def crGo (isR : Char → Bool) (k : Nat) (cur : Char) (cnt : Nat) (l : List Char) :
    List Char :=
  match l with
  | [] => flushRun isR k cur cnt
  | c :: cs =>
    if c == cur then crGo isR k cur (cnt + 1) cs
    else flushRun isR k cur cnt ++ crGo isR k c 1 cs

def collapseRuns (isR : Char → Bool) (k : Nat) (l : List Char) : List Char :=
  match l with
  | [] => []
  | c :: cs => crGo isR k c 1 cs

/-- `re.sub(r"\\s+", " ", ·)` (cleaner step 7): every maximal whitespace run
becomes a single space; the `inRun` flag records that the single space for
the current run has already been emitted. -/
def wsGo (inRun : Bool) (l : List Char) : List Char :=
  match l with
  | [] => []
  | c :: cs =>
    if isSpacePy c then
      if inRun then wsGo true cs else ' ' :: wsGo true cs
    else c :: wsGo false cs

def wsCollapse (l : List Char) : List Char :=
  wsGo false l

/-- Remove trailing whitespace (the right half of `str.strip`). -/
def dropTrailingSpace (l : List Char) : List Char :=
  match l with
  | [] => []
  | c :: cs =>
    match dropTrailingSpace cs with
    | [] => if isSpacePy c then [] else [c]
    | r => c :: r

/-- `str.strip()` (cleaner step 8). -/
def pyStrip (l : List Char) : List Char :=
  dropTrailingSpace (l.dropWhile isSpacePy)

/-- `str.isdigit()`: nonempty and all digits (cleaner step 10; modelled by
the ASCII digits, which is what the concrete scenarios use). -/
def isDigitsOnly (l : List Char) : Bool :=
  !l.isEmpty && l.all Char.isDigit

/-- The core of `clean_caption` (`src/cleaner.py`, steps 1–8) on the
character list of a nonempty string. -/
def cleanCaptionData (l : List Char) : List Char :=
  pyStrip (wsCollapse (collapseRuns cleanRep 2
    (wlFilter (deEmoji (subDomain (subUrl (subMark '@' (subMark '#' l))))))))

/-- `clean_caption` on a string argument: runs the regex pipeline, then the
short-text (step 9) and digits-only (step 10) guards.  An empty string is
falsy in Python, so it returns `""` straight away. -/
def cleanCaptionStr (s : String) : String :=
  if s = "" then ""
  else
    if (cleanCaptionData s.data).length < 3 then ""
    else if isDigitsOnly (cleanCaptionData s.data) then ""
    else String.mk (cleanCaptionData s.data)

/-- `clean_caption` on an arbitrary Python value: `if not text or not
isinstance(text, str): return ""`. -/
def cleanCaptionVal (v : PyVal) : String :=
  match v with
  | .str s => cleanCaptionStr s
  | _ => ""

/-- `clean_captions` (`src/cleaner.py`): set `cleaned_caption` on every
record from its `caption` field (`post.get("caption", "")`). -/
def cleanCaptions (posts : List Dict) : List Dict :=
  posts.map (fun p => dset p "cleaned_caption" (.str (cleanCaptionVal (dgetD p "caption" (.str "")))))

/-! ### The sentiment stage (`src/sentiment.py`) -/

/-- `str.strip()` on a string argument. -/
def stripStr (s : String) : String :=
  String.mk (pyStrip s.data)

/-- Python `\w` as used by `preprocess_text`'s `#(\w+)` rule, including the
Korean blocks this pipeline targets. -/
def isWordFull (c : Char) : Bool :=
  isWordPy c || isHangulSyl c || isJamoCons c || isJamoVowel c

/-- Is the head a word character? -/
def wordHead (l : List Char) : Bool :=
  match l with
  | [] => false
  | d :: _ => isWordFull d

/-- `re.sub(r'#(\w+)', r'\1', ·)`: a `#` directly followed by a word
character is dropped (the captured word run is its own replacement). -/
def subHashWord (l : List Char) : List Char :=
  match l with
  | [] => []
  | c :: cs => if c == '#' && wordHead cs then subHashWord cs else c :: subHashWord cs

/-- `SentimentAnalyzer.preprocess_text`: strip, collapse whitespace runs to
one space, collapse runs of ≥ 3 repeated `[!?.]` to a single copy, drop
`#` before word characters.  Empty text returns `""` straight away. -/
def preprocessText (s : String) : String :=
  if s = "" then ""
  else String.mk (subHashWord (collapseRuns preRep 1 (wsCollapse (pyStrip s.data))))

/-- A raw model output for one text: class scores as (label, score) pairs,
the shape `return_all_scores=True` produces. -/
abbrev Scores := List (String × Rat)

/-- The sentiment model boundary: per-text class scores.  The loaded
transformer pipeline applies this to every text of a batch. -/
abbrev SModel := String → Scores

/-- `max(scores, key=lambda x: x['score'])`: Python's `max` keeps the
first-seen maximum, replacing only on a strictly larger key. -/
def pyMaxByScore (best : String × Rat) (rest : Scores) : String × Rat :=
  match rest with
  | [] => best
  | x :: xs => pyMaxByScore (if best.2 < x.2 then x else best) xs

/-- `SentimentAnalyzer.neutral_threshold`. -/
def neutralThreshold : Rat := mkRat 6 10

/-- `SentimentAnalyzer.label_mapping.get(label, '알 수 없음')`. -/
def labelKorean (l : String) : String :=
  if l = "LABEL_0" then "부정"
  else if l = "LABEL_1" then "긍정"
  else if l = "NEGATIVE" then "부정"
  else if l = "POSITIVE" then "긍정"
  else "알 수 없음"

/-- `SentimentAnalyzer.classify_sentiment`: empty score list → unknown;
highest score below the neutral threshold → neutral; otherwise the mapped
label (unknown labels fall back to `알 수 없음`). -/
def classifySentiment (scores : Scores) : String × Rat :=
  match scores with
  | [] => ("알 수 없음", 0)
  | s :: rest =>
    if (pyMaxByScore s rest).2 < neutralThreshold then ("중립", (pyMaxByScore s rest).2)
    else (labelKorean (pyMaxByScore s rest).1, (pyMaxByScore s rest).2)

/-- `SentimentAnalyzer.analyze_batch` with a loaded pipeline: run the model
on every text of the batch and classify each score list.  (The exception
branch that maps the whole batch to `오류` is the model raising, which a
total model function does not do.) -/
def analyzeBatch (m : SModel) (texts : List String) : List (String × Rat) :=
  (texts.map m).map classifySentiment

/-- `post.get("cleaned_caption", "")`, read as a string.  A present
non-string value would raise `AttributeError` at `caption.strip()` in
Python (nothing catches it in the scan loop); theorems about the stage
therefore carry the `SentWF` record-model hypothesis below. -/
def getCleanedCaption (p : Dict) : String :=
  match dget? p "cleaned_caption" with
  | some (.str s) => s
  | _ => ""

/-- `{**post, 'sentiment': '처리불가', 'score': 0.0, 'index': i}`. -/
def sentinelTag (p : Dict) (i : Nat) : Dict :=
  dset (dset (dset p "sentiment" (.str "처리불가")) "score" (.rat 0)) "index" (.int i)

/-- `{**post, 'sentiment': result['sentiment'], 'score': result['score']}`. -/
def combineResult (p : Dict) (r : String × Rat) : Dict :=
  dset (dset p "sentiment" (.str r.1)) "score" (.rat r.2)

/-- The scan loop of `analyze_sentiment` (lines 218–231): walk the posts
with their enumeration index; empty/whitespace-only cleaned captions are
finished immediately with the sentinel, the rest are collected (tagged
with their index) together with their preprocessed texts. -/
def splitPosts (i : Nat) (posts : List Dict) : List Dict × List Dict × List String :=
  match posts with
  | [] => ([], [], [])
  | p :: ps =>
    let r := splitPosts (i + 1) ps
    let cap := getCleanedCaption p
    if cap = "" || stripStr cap = "" then (sentinelTag p i :: r.1, r.2.1, r.2.2)
    else (r.1, dset p "index" (.int i) :: r.2.1, preprocessText cap :: r.2.2)

/-- The batch loop of `analyze_sentiment` (lines 238–249): slices of
`batch_size` texts and posts, each batch analyzed and zipped back onto its
posts.  `fuel` is an upper bound on the number of remaining texts (the
Python `range(0, len, batch_size)` loop needs `batch_size ≥ 1`, which makes
`texts.length` fuel enough; `batch_size = 0` raises `ValueError` there). -/
def batchChunks (m : SModel) (bs : Nat) (fuel : Nat) (texts : List String)
    (ps : List Dict) : List Dict :=
  match fuel with
  | 0 => []
  | fuel + 1 =>
    if texts.isEmpty then []
    else
      List.zipWith combineResult (ps.take bs) (analyzeBatch m (texts.take bs)) ++
        batchChunks m bs fuel (texts.drop bs) (ps.drop bs)

/-- The sort key of `processed_posts.sort(key=lambda x: x['index'])`. -/
def idxKey (d : Dict) : Int :=
  match dget? d "index" with
  | some (.int n) => n
  | _ => 0

def idxLE (a b : Dict) : Prop := idxKey a ≤ idxKey b

instance : DecidableRel idxLE := fun a b => Int.decLe _ _

instance : IsTotal Dict idxLE := ⟨fun a b => Int.le_total (idxKey a) (idxKey b)⟩

instance : IsTrans Dict idxLE := ⟨fun _ _ _ h1 h2 => le_trans h1 h2⟩

/-- `list.sort(key=lambda x: x['index'])`: Python's sort is a stable
comparison sort on the key; on pairwise-distinct keys (the only way the
stage uses it) every comparison sort agrees, so insertion sort models it. -/
def sortByIndex (l : List Dict) : List Dict :=
  List.insertionSort idxLE l

/-- `SentimentAnalyzer.analyze_sentiment` (also reachable through the
module-level wrapper `analyze_sentiment(posts, model)`): with no loaded
pipeline every record gets the sentinel prepended-dict
`{'sentiment': '처리불가', 'score': 0.0, **post}`; with a loaded pipeline
the records are scanned, batched, re-sorted by the transient `index` field,
and the field is popped. -/
def analyzeSentiment (model : Option SModel) (bs : Nat) (posts : List Dict) :
    List Dict :=
  match model with
  | Option.none =>
    posts.map (fun p => dmerge [("sentiment", .str "처리불가"), ("score", .rat 0)] p)
  | some m =>
    let s := splitPosts 0 posts
    (sortByIndex (s.1 ++ batchChunks m bs s.2.2.length s.2.2 s.2.1)).map
      (fun p => dpop p "index")

/-- One record enriched in place, still carrying its index tag. -/
def enrichTagged (m : SModel) (i : Nat) (p : Dict) : Dict :=
  if getCleanedCaption p = "" || stripStr (getCleanedCaption p) = "" then sentinelTag p i
  else combineResult (dset p "index" (.int i))
    (classifySentiment (m (preprocessText (getCleanedCaption p))))

/-- All records enriched in place, in input order, indices from `i`. -/
def directTagged (m : SModel) (i : Nat) (posts : List Dict) : List Dict :=
  match posts with
  | [] => []
  | p :: ps => enrichTagged m i p :: directTagged m (i + 1) ps

/-- The specification's reading of the sentiment stage (§4.3, §8): a plain
order-preserving per-record map — each record is enriched in place and the
output order is the input order, independent of any internal batching. -/
def analyzeSentimentSpec (m : SModel) (posts : List Dict) : List Dict :=
  (directTagged m 0 posts).map (fun p => dpop p "index")

/-- The record-model hypothesis for the sentiment stage: a present
`cleaned_caption` value is a string (§3 declares the field as text; a
non-string would raise in the Python scan loop rather than return). -/
def ccIsStr (p : Dict) : Bool :=
  match dget? p "cleaned_caption" with
  | some (.str _) => true
  | some _ => false
  | Option.none => true

def SentWF (posts : List Dict) : Prop := ∀ p ∈ posts, ccIsStr p = true

instance : DecidablePred SentWF := fun posts =>
  inferInstanceAs (Decidable (∀ p ∈ posts, ccIsStr p = true))

/-! ### The keyword stage (`src/keywords.py`) -/

/-- The keyword model boundary: text and `top_n` to ranked
(phrase, relevance) pairs, the shape `KeyBERT.extract_keywords` returns. -/
abbrev KModel := String → Nat → List (String × Rat)

/-- `post.get("cleaned_caption", post.get("caption", ""))`. -/
def kwText (p : Dict) : PyVal :=
  match dget? p "cleaned_caption" with
  | some v => v
  | Option.none => dgetD p "caption" (.str "")

/-- The per-record body of `extract_keywords`: empty or short (stripped
length < 10) text gets `[]` without invoking the model, otherwise the
model's phrases (scores dropped).  A non-string text either is falsy
(gated to `[]`) or raises at `.strip()`, and the per-record `except` then
also sets `[]`. -/
def extractOne (m : KModel) (topN : Nat) (p : Dict) : Dict :=
  match kwText p with
  | .str s =>
    if s = "" || decide ((pyStrip s.data).length < 10) then
      dset p "keywords" (.strList [])
    else dset p "keywords" (.strList ((m s topN).map Prod.fst))
  | _ => dset p "keywords" (.strList [])

/-- `extract_keywords(posts, model, top_n)`: with no model the posts are
returned untouched, otherwise every record is processed in place. -/
def extractKeywords (model : Option KModel) (topN : Nat) (posts : List Dict) :
    List Dict :=
  match model with
  | Option.none => posts
  | some m => posts.map (extractOne m topN)

/-! ### The collectors -/

/-- One item of the Apify actor's dataset, with the fields
`fetch_posts_from_apify` reads (`item.get(...)` defaults applied at this
external boundary). -/
structure ApifyItem where
  caption : String
  timestamp : Option String
  shortcode : String
  url : String
  likesCount : Int
  commentsCount : Int

/-- `date_str.split("T")[0] if "T" in date_str else date_str.split(" ")[0]`. -/
def dateOnly (s : String) : String :=
  if s.data.contains 'T' then String.mk (s.data.takeWhile (fun c => !(c == 'T')))
  else String.mk (s.data.takeWhile (fun c => !(c == ' ')))

/-- The record built for one kept Apify item (`now` is the
`datetime.now()` collection timestamp). -/
def apifyRecord (hashtag now : String) (it : ApifyItem) : Dict :=
  [("caption", .str it.caption),
   ("date", match it.timestamp with
     | some d => if d = "" then PyVal.none else .str (dateOnly d)
     | Option.none => PyVal.none),
   ("shortcode", .str it.shortcode),
   ("url", .str it.url),
   ("hashtag", .str hashtag),
   ("likes", .int it.likesCount),
   ("comments", .int it.commentsCount),
   ("collected_at", .str now)]

/-- `fetch_posts_from_apify` (`app/app.py`): with no API token, error and
`[]`.  Otherwise `maxCount` is only forwarded to the external actor as
`resultsLimit`; the collection loop itself iterates the whole returned
dataset, keeping every item with a nonempty caption — it does not enforce
the limit locally. -/
def fetchPostsFromApify (hashtag : String) (maxCount : Nat) (apifyToken : String)
    (now : String) (items : List ApifyItem) : List Dict :=
  if apifyToken = "" then []
  else items.filterMap (fun it =>
    if it.caption = "" then Option.none else some (apifyRecord hashtag now it))

/-- One post from the instaloader stream, with the fields
`fetch_hashtag_posts` reads (`post.caption` may be `None`). -/
structure ScrapedPost where
  caption : Option String
  dateUtc : String
  shortcode : String
  likes : Int

/-- The record built for one kept instaloader post. -/
def scrapeRecord (hashtag now : String) (p : ScrapedPost) (c : String) : Dict :=
  [("caption", .str c),
   ("date", .str p.dateUtc),
   ("shortcode", .str p.shortcode),
   ("url", .str ("https://www.instagram.com/p/" ++ p.shortcode ++ "/")),
   ("hashtag", .str hashtag),
   ("likes", .int p.likes),
   ("collected_at", .str now)]

/-- The collection loop of `SafeInstagramScraper.fetch_hashtag_posts`
(success path of one attempt): stop as soon as `collected >= max_count`,
skip posts with falsy captions, append and count the rest. -/
def scrapeLoop (hashtag now : String) (maxCount : Nat) (stream : List ScrapedPost)
    (collected : Nat) : List Dict :=
  match stream with
  | [] => []
  | p :: ps =>
    if decide (maxCount ≤ collected) then []
    else
      match p.caption with
      | Option.none => scrapeLoop hashtag now maxCount ps collected
      | some c =>
        if c = "" then scrapeLoop hashtag now maxCount ps collected
        else scrapeRecord hashtag now p c :: scrapeLoop hashtag now maxCount ps (collected + 1)

def fetchHashtagPosts (hashtag : String) (maxCount : Nat) (now : String)
    (stream : List ScrapedPost) : List Dict :=
  scrapeLoop hashtag now maxCount stream 0

/-! ### The pipeline orchestrator (`app/app.py::run_pipeline`) -/

inductive Stage where
  | collecting
  | savingRaw
  | cleaning
  | scoringSentiment
  | extractingKeywords
  | savingFinal
  deriving DecidableEq, Repr

/-- The observable outcome of one `run_pipeline` call: the returned list,
the operations that ran (in order), and whether the "no data collected"
warning was shown. -/
structure PipelineRun where
  result : List Dict
  stages : List Stage
  warnedNoData : Bool
  deriving DecidableEq, Repr

/-- `run_pipeline`, parameterized by the collector's returned list and the
loaded models.  The raw snapshot is saved before the emptiness check; when
the collector returned nothing the run warns and returns `[]` before any
later stage, otherwise cleaning, sentiment, keywords and the final
snapshot run in order. -/
def runPipeline (fetched : List Dict) (sm : Option SModel) (bs : Nat)
    (km : Option KModel) (topN : Nat) : PipelineRun :=
  if fetched.isEmpty then
    { result := [],
      stages := [Stage.collecting, Stage.savingRaw],
      warnedNoData := true }
  else
    { result := extractKeywords km topN (analyzeSentiment sm bs (cleanCaptions fetched)),
      stages := [Stage.collecting, Stage.savingRaw, Stage.cleaning,
        Stage.scoringSentiment, Stage.extractingKeywords, Stage.savingFinal],
      warnedNoData := false }

/-! ### Shape predicates used by the statements and proofs -/

/-- No three consecutive equal repetition-prone characters (the shape that
`collapseRuns` output has, and on which it acts as the identity). -/
def noTriple (isR : Char → Bool) : List Char → Prop
  | a :: b :: c :: rest => ¬(a = b ∧ b = c ∧ isR a = true) ∧ noTriple isR (b :: c :: rest)
  | _ => True

/-- No two consecutive whitespace characters. -/
def noDoubleSpace : List Char → Prop
  | a :: b :: rest => ¬(isSpacePy a = true ∧ isSpacePy b = true) ∧ noDoubleSpace (b :: rest)
  | _ => True

/-- The per-record field-growth relation of the monotonicity invariant,
weakened by the one deletion the code performs: every field present on
entry other than the transient `index` field is still present on exit. -/
def fieldGrowth (before after : Dict) : Prop :=
  ∀ k ∈ dkeys before, k ≠ "index" → k ∈ dkeys after

/-! ## Dictionary lemmas -/

theorem dget?_dset_self (d : Dict) (k : String) (v : PyVal) :
    dget? (dset d k v) k = some v := by
  induction d with
  | nil => simp [dset, dget?]
  | cons e rest ih =>
    by_cases h : e.1 = k
    · simp [dset, h, dget?]
    · simp [dset, h, dget?, ih]

theorem dget?_dset_ne (d : Dict) {k k' : String} (v : PyVal) (h : k' ≠ k) :
    dget? (dset d k v) k' = dget? d k' := by
  have hks : k ≠ k' := Ne.symm h
  induction d with
  | nil => simp [dset, dget?, hks]
  | cons e rest ih =>
    by_cases he : e.1 = k
    · subst he
      simp [dset, dget?, hks]
    · simp [dset, he, dget?, ih]

theorem dget?_dpop_ne (d : Dict) {k k' : String} (h : k' ≠ k) :
    dget? (dpop d k) k' = dget? d k' := by
  induction d with
  | nil => simp [dpop]
  | cons e rest ih =>
    by_cases he : e.1 = k
    · subst he
      simp [dpop, dget?, Ne.symm h, ih]
    · simp [dpop, he, dget?, ih]

theorem mem_dkeys_dset (d : Dict) (k k' : String) (v : PyVal)
    (h : k' ∈ dkeys d) : k' ∈ dkeys (dset d k v) := by
  induction d with
  | nil => simp [dkeys] at h
  | cons e rest ih =>
    by_cases he : e.1 = k
    · simp [dkeys, dset, he] at h ⊢
      rcases h with h | h
      · exact Or.inl (he ▸ h)
      · exact Or.inr h
    · simp [dkeys, dset, he] at h ⊢
      rcases h with h | h
      · exact Or.inl h
      · exact Or.inr (by simpa [dkeys] using ih (by simpa [dkeys] using h))

theorem mem_dkeys_dpop (d : Dict) {k k' : String} (h : k' ∈ dkeys d)
    (hne : k' ≠ k) : k' ∈ dkeys (dpop d k) := by
  induction d with
  | nil => simp [dkeys] at h
  | cons e rest ih =>
    by_cases he : e.1 = k
    · simp [dkeys, he] at h
      rcases h with h | h
      · exact absurd h hne
      · simpa [dpop, he] using ih (by simpa [dkeys] using h)
    · simp [dkeys] at h
      rcases h with h | h
      · simp [dpop, he, dkeys, h]
      · have := ih (by simpa [dkeys] using h)
        simp [dpop, he, dkeys] at this ⊢
        exact Or.inr (by simpa [dkeys] using this)

theorem mem_dkeys_dmerge (base upd : Dict) (k : String)
    (h : k ∈ dkeys base) : k ∈ dkeys (dmerge base upd) := by
  induction upd generalizing base with
  | nil => simpa [dmerge] using h
  | cons e rest ih =>
    have : dmerge base (e :: rest) = dmerge (dset base e.1 e.2) rest := by
      simp [dmerge]
    rw [this]
    exact ih _ (mem_dkeys_dset _ _ _ _ h)

/-! ## Generic list helpers -/

theorem getD_map_of_lt {α β : Type} (f : α → β) (l : List α)
    (i : Nat) (hi : i < l.length) (d : α) (db : β) :
    (l.map f).getD i db = f (l.getD i d) := by
  rw [List.getD_eq_getElem?_getD, List.getD_eq_getElem?_getD, List.getElem?_map]
  rw [List.getElem?_eq_getElem hi]
  simp

/-! ## Claim C9: the concrete cleaning scenario -/

/-- C9: the raw caption `"오늘 완전 좋았다!!!! #행복 @friend http://x.co 😊"`
cleans to exactly `"오늘 완전 좋았다!!"`: the hashtag token, the mention
token, the URL and the emoji are removed, and the run `!!!!` collapses to
`!!`. -/
theorem c9_clean_concrete_caption :
    cleanCaptionStr "오늘 완전 좋았다!!!! #행복 @friend http://x.co 😊" =
      "오늘 완전 좋았다!!" := by decide

/-! ## Claim C8: totality of the cleaner -/

/-- C8: the caption cleaner is total — it is a function into strings, and
empty, null and non-string input all map to `""` (`clean_caption` checks
`not text or not isinstance(text, str)` up front; its `except` arm, which a
total embedding cannot exercise, also returns `""`). -/
theorem c8_clean_total_nonstring_empty (v : PyVal) (h : ∀ s, v ≠ PyVal.str s) :
    cleanCaptionVal v = "" ∧ cleanCaptionVal (PyVal.str "") = "" ∧
      cleanCaptionVal PyVal.none = "" := by
  refine ⟨?_, by decide, by decide⟩
  cases v with
  | str s => exact absurd rfl (h s)
  | int n => rfl
  | rat q => rfl
  | strList l => rfl
  | none => rfl

theorem c8_witness :
    (∀ s, PyVal.int 7 ≠ PyVal.str s) ∧
      (cleanCaptionVal (PyVal.int 7) = "" ∧ cleanCaptionVal (PyVal.str "") = "" ∧
        cleanCaptionVal PyVal.none = "") :=
  ⟨fun s h => PyVal.noConfusion h,
   c8_clean_total_nonstring_empty (PyVal.int 7) (fun s h => PyVal.noConfusion h)⟩

/-! ## Claim C10: keyword fallback to the raw caption -/

/-- C10: a record that reaches the keyword stage with no `cleaned_caption`
key at all falls back to its raw `caption` field: the minimum-length gate
(stripped length < 10 gives `[]`) is applied to the raw caption, and
otherwise the keywords are the model's phrases for that raw caption. -/
theorem c10_keywords_fallback_raw_caption (m : KModel) (tn : Nat)
    (posts : List Dict) (i : Nat) (s : String) (hi : i < posts.length)
    (hcc : dget? (posts.getD i []) "cleaned_caption" = Option.none)
    (hcap : dget? (posts.getD i []) "caption" = some (PyVal.str s)) :
    dget? ((extractKeywords (some m) tn posts).getD i []) "keywords" =
      some (PyVal.strList
        (if (pyStrip s.data).length < 10 then [] else (m s tn).map Prod.fst)) := by
  have hmap : (extractKeywords (some m) tn posts).getD i [] =
      extractOne m tn (posts.getD i []) := by
    simpa [extractKeywords] using
      getD_map_of_lt (extractOne m tn) posts i hi [] []
  rw [hmap]
  unfold extractOne
  rw [kwText, hcc, dgetD, hcap]
  simp only [Option.getD_some]
  by_cases hs : s = ""
  · subst hs
    simp [dget?_dset_self, pyStrip, dropTrailingSpace]
  · by_cases hlen : (pyStrip s.data).length < 10
    · simp [hs, hlen, dget?_dset_self]
    · simp [hs, hlen, dget?_dset_self]

theorem c10_witness :
    (0 < 1 ∧
      dget? (([[("caption", PyVal.str "여행을 다녀왔는데 정말 좋았어요")]] : List Dict).getD 0 [])
        "cleaned_caption" = Option.none ∧
      dget? (([[("caption", PyVal.str "여행을 다녀왔는데 정말 좋았어요")]] : List Dict).getD 0 [])
        "caption" = some (PyVal.str "여행을 다녀왔는데 정말 좋았어요")) ∧
    dget? ((extractKeywords (some (fun _ _ => [("여행", mkRat 9 10)])) 3
        [[("caption", PyVal.str "여행을 다녀왔는데 정말 좋았어요")]]).getD 0 []) "keywords" =
      some (PyVal.strList
        (if (pyStrip ("여행을 다녀왔는데 정말 좋았어요" : String).data).length < 10 then []
          else ((fun (_ : String) (_ : Nat) => [("여행", mkRat 9 10)]) "여행을 다녀왔는데 정말 좋았어요" 3).map Prod.fst)) :=
  ⟨⟨by decide, by decide, by decide⟩,
    c10_keywords_fallback_raw_caption (fun _ _ => [("여행", mkRat 9 10)]) 3
      [[("caption", PyVal.str "여행을 다녀왔는데 정말 좋았어요")]] 0
      "여행을 다녀왔는데 정말 좋았어요" (by decide) (by decide) (by decide)⟩

/-! ## Claim C7: empty collection short-circuits the run -/

/-- C7: when the collector returns the empty list, `run_pipeline` warns
("no data collected"), returns the empty result, and none of cleaning,
sentiment scoring, keyword extraction or the final snapshot write is
invoked (the run is a reported failure, not an empty success). -/
theorem c7_empty_collection_short_circuit (sm : Option SModel) (bs : Nat)
    (km : Option KModel) (tn : Nat) :
    (runPipeline [] sm bs km tn).result = [] ∧
    (runPipeline [] sm bs km tn).warnedNoData = true ∧
    Stage.cleaning ∉ (runPipeline [] sm bs km tn).stages ∧
    Stage.scoringSentiment ∉ (runPipeline [] sm bs km tn).stages ∧
    Stage.extractingKeywords ∉ (runPipeline [] sm bs km tn).stages ∧
    Stage.savingFinal ∉ (runPipeline [] sm bs km tn).stages := by
  refine ⟨rfl, rfl, ?_, ?_, ?_, ?_⟩ <;>
    · show _ ∉ [Stage.collecting, Stage.savingRaw]
      decide

/-! ## Claim C3: the collection limit -/

theorem scrapeLoop_length_le (hashtag now : String) (maxCount : Nat)
    (stream : List ScrapedPost) (collected : Nat) :
    (scrapeLoop hashtag now maxCount stream collected).length ≤ maxCount - collected := by
  induction stream generalizing collected with
  | nil => simp [scrapeLoop]
  | cons p ps ih =>
    by_cases hstop : maxCount ≤ collected
    · simp [scrapeLoop, hstop]
    · cases hc : p.caption with
      | none => simpa [scrapeLoop, hstop, hc] using ih collected
      | some c =>
        by_cases hce : c = ""
        · simpa [scrapeLoop, hstop, hc, hce] using ih collected
        · have := ih (collected + 1)
          simp [scrapeLoop, hstop, hc, hce, List.length_cons]
          omega

/-- C3 (counterexample): the active Apify collector does not enforce the
limit locally — with `limit = 1` and two dataset items carrying captions it
returns two records. -/
theorem c3_counterexample :
    ¬ ((fetchPostsFromApify "여행" 1 "token" "2024-01-01 00:00:00"
        [⟨"첫 번째 게시글", Option.none, "a1", "u1", 3, 1⟩,
         ⟨"두 번째 게시글", Option.none, "a2", "u2", 5, 2⟩]).length ≤ 1) := by decide

/-- C3 (amended): the deprecated instaloader collector returns at most
`limit` records for every item stream; the Apify collector merely forwards
the limit to the external actor (`resultsLimit`) and returns at most one
record per item the service actually returned, with no local cap. -/
theorem c3_amended_collector_limit :
    (∀ (hashtag tok now : String) (n : Nat) (items : List ApifyItem),
        (fetchPostsFromApify hashtag n tok now items).length ≤ items.length) ∧
    (∀ (hashtag now : String) (n : Nat) (stream : List ScrapedPost),
        (fetchHashtagPosts hashtag n now stream).length ≤ n) := by
  constructor
  · intro hashtag tok now n items
    unfold fetchPostsFromApify
    split
    · simp
    · exact List.length_filterMap_le _ _
  · intro hashtag now n stream
    simpa using scrapeLoop_length_le hashtag now n stream 0

/-! ## The sentiment stage: batching + index sort = order-preserving map -/

theorem splitPosts_lengths (i : Nat) (posts : List Dict) :
    (splitPosts i posts).2.1.length = (splitPosts i posts).2.2.length := by
  induction posts generalizing i with
  | nil => simp [splitPosts]
  | cons p ps ih =>
    by_cases h : (getCleanedCaption p = "" || stripStr (getCleanedCaption p) = "") = true
    · simpa [splitPosts, h] using ih (i + 1)
    · simpa [splitPosts, h] using ih (i + 1)

theorem batchChunks_eq_zipWith (m : SModel) (bs : Nat) (hbs : 1 ≤ bs)
    (fuel : Nat) (texts : List String) (ps : List Dict)
    (hlen : ps.length = texts.length) (hfuel : texts.length ≤ fuel) :
    batchChunks m bs fuel texts ps =
      List.zipWith combineResult ps
        (texts.map (fun t => classifySentiment (m t))) := by
  induction fuel generalizing texts ps with
  | zero =>
    have : texts = [] := List.length_eq_zero.mp (Nat.le_zero.mp hfuel)
    subst this
    simp [batchChunks]
  | succ fuel ih =>
    by_cases hempty : texts.isEmpty
    · have : texts = [] := List.isEmpty_iff.mp hempty
      subst this
      simp [batchChunks]
    · have hne : texts ≠ [] := fun h => hempty (by simp [h])
      have hpos : 0 < texts.length := List.length_pos.mpr hne
      have key : List.zipWith combineResult (ps.take bs)
            ((texts.map (fun t => classifySentiment (m t))).take bs) ++
          List.zipWith combineResult (ps.drop bs)
            ((texts.map (fun t => classifySentiment (m t))).drop bs) =
          List.zipWith combineResult ps
            (texts.map (fun t => classifySentiment (m t))) := by
        have hl : (ps.take bs).length =
            ((texts.map (fun t => classifySentiment (m t))).take bs).length := by
          simp [List.length_take, hlen]
        have := (List.zipWith_append combineResult (ps.take bs) (ps.drop bs)
          ((texts.map (fun t => classifySentiment (m t))).take bs)
          ((texts.map (fun t => classifySentiment (m t))).drop bs) hl).symm
        rwa [List.take_append_drop, List.take_append_drop] at this
      have hab : analyzeBatch m (texts.take bs) =
          (texts.map (fun t => classifySentiment (m t))).take bs := by
        simp [analyzeBatch, List.map_take, List.map_map]
        rfl
      have hdl : (ps.drop bs).length = (texts.drop bs).length := by
        simp [List.length_drop, hlen]
      have hdf : (texts.drop bs).length ≤ fuel := by
        have : (texts.drop bs).length = texts.length - bs := List.length_drop bs texts
        omega
      have hmd : (texts.drop bs).map (fun t => classifySentiment (m t)) =
          (texts.map (fun t => classifySentiment (m t))).drop bs := by
        simp [List.map_drop]
      rw [batchChunks, if_neg hempty, hab, ih _ _ hdl hdf, hmd, key]

theorem splitPosts_perm (m : SModel) (i : Nat) (posts : List Dict) :
    ((splitPosts i posts).1 ++
      List.zipWith combineResult (splitPosts i posts).2.1
        ((splitPosts i posts).2.2.map (fun t => classifySentiment (m t)))).Perm
      (directTagged m i posts) := by
  induction posts generalizing i with
  | nil => simp [splitPosts, directTagged]
  | cons p ps ih =>
    by_cases h : (getCleanedCaption p = "" || stripStr (getCleanedCaption p) = "") = true
    · have : directTagged m i (p :: ps) =
          sentinelTag p i :: directTagged m (i + 1) ps := by
        simp [directTagged, enrichTagged, h]
      rw [this]
      simpa [splitPosts, h] using (ih (i + 1)).cons (sentinelTag p i)
    · have hd : directTagged m i (p :: ps) =
          combineResult (dset p "index" (.int i))
              (classifySentiment (m (preprocessText (getCleanedCaption p)))) ::
            directTagged m (i + 1) ps := by
        simp [directTagged, enrichTagged, h]
      rw [hd]
      have hmid : ((splitPosts (i + 1) ps).1 ++
            combineResult (dset p "index" (.int i))
              (classifySentiment (m (preprocessText (getCleanedCaption p)))) ::
            List.zipWith combineResult (splitPosts (i + 1) ps).2.1
              ((splitPosts (i + 1) ps).2.2.map (fun t => classifySentiment (m t)))).Perm
          (combineResult (dset p "index" (.int i))
              (classifySentiment (m (preprocessText (getCleanedCaption p)))) ::
            ((splitPosts (i + 1) ps).1 ++
              List.zipWith combineResult (splitPosts (i + 1) ps).2.1
                ((splitPosts (i + 1) ps).2.2.map (fun t => classifySentiment (m t))))) :=
        List.perm_middle
      have heq : (splitPosts i (p :: ps)).1 ++
            List.zipWith combineResult (splitPosts i (p :: ps)).2.1
              ((splitPosts i (p :: ps)).2.2.map (fun t => classifySentiment (m t))) =
          (splitPosts (i + 1) ps).1 ++
            (combineResult (dset p "index" (.int i))
                (classifySentiment (m (preprocessText (getCleanedCaption p)))) ::
              List.zipWith combineResult (splitPosts (i + 1) ps).2.1
                ((splitPosts (i + 1) ps).2.2.map (fun t => classifySentiment (m t)))) := by
        simp [splitPosts, h]
      rw [heq]
      exact hmid.trans ((ih (i + 1)).cons _)

theorem idxKey_sentinelTag (p : Dict) (i : Nat) :
    idxKey (sentinelTag p i) = (i : Int) := by
  simp [idxKey, sentinelTag, dget?_dset_self]

theorem idxKey_enrichTagged (m : SModel) (i : Nat) (p : Dict) :
    idxKey (enrichTagged m i p) = (i : Int) := by
  unfold enrichTagged
  split
  · exact idxKey_sentinelTag p i
  · simp [idxKey, combineResult,
      dget?_dset_ne _ _ (by decide : ("index" : String) ≠ "score"),
      dget?_dset_ne _ _ (by decide : ("index" : String) ≠ "sentiment"),
      dget?_dset_self]

theorem directTagged_key_bounds (m : SModel) (i : Nat) (posts : List Dict) :
    List.Sorted (fun a b => idxKey a < idxKey b) (directTagged m i posts) ∧
      ∀ d ∈ directTagged m i posts, (i : Int) ≤ idxKey d := by
  induction posts generalizing i with
  | nil => simp [directTagged]
  | cons p ps ih =>
    obtain ⟨hs, hb⟩ := ih (i + 1)
    refine ⟨?_, ?_⟩
    · rw [directTagged, List.sorted_cons]
      refine ⟨?_, hs⟩
      intro b hbmem
      have := hb b hbmem
      rw [idxKey_enrichTagged]
      push_cast at this ⊢
      omega
    · intro d hd
      rw [directTagged] at hd
      rcases List.mem_cons.mp hd with rfl | hd
      · rw [idxKey_enrichTagged]
      · have := hb d hd
        push_cast at this ⊢
        omega

theorem sortByIndex_processed_eq (m : SModel) (bs : Nat) (hbs : 1 ≤ bs)
    (posts : List Dict) :
    sortByIndex ((splitPosts 0 posts).1 ++
        batchChunks m bs (splitPosts 0 posts).2.2.length
          (splitPosts 0 posts).2.2 (splitPosts 0 posts).2.1) =
      directTagged m 0 posts := by
  rw [batchChunks_eq_zipWith m bs hbs _ _ _ (splitPosts_lengths 0 posts) le_rfl]
  set P := (splitPosts 0 posts).1 ++
    List.zipWith combineResult (splitPosts 0 posts).2.1
      ((splitPosts 0 posts).2.2.map (fun t => classifySentiment (m t))) with hP
  have hperm : (sortByIndex P).Perm (directTagged m 0 posts) :=
    (List.perm_insertionSort idxLE P).trans (splitPosts_perm m 0 posts)
  have hD : List.Sorted (fun a b => idxKey a < idxKey b) (directTagged m 0 posts) :=
    (directTagged_key_bounds m 0 posts).1
  have hsle : List.Sorted idxLE (sortByIndex P) := List.sorted_insertionSort idxLE P
  have hDnodup : ((directTagged m 0 posts).map idxKey).Nodup := by
    have : List.Pairwise (fun a b : Int => a < b) ((directTagged m 0 posts).map idxKey) :=
      List.pairwise_map.mpr hD
    exact this.imp ne_of_lt
  have hSnodup : ((sortByIndex P).map idxKey).Nodup :=
    ((hperm.map idxKey).nodup_iff).mpr hDnodup
  have hne : List.Pairwise (fun a b => idxKey a ≠ idxKey b) (sortByIndex P) :=
    List.pairwise_map.mp hSnodup
  have hslt : List.Sorted (fun a b => idxKey a < idxKey b) (sortByIndex P) := by
    have hpair : List.Pairwise idxLE (sortByIndex P) := hsle
    exact (hpair.and hne).imp (fun h => lt_of_le_of_ne h.1 h.2)
  haveI : IsAntisymm Dict (fun a b => idxKey a < idxKey b) :=
    ⟨fun a b h1 h2 => absurd (lt_trans h1 h2) (lt_irrefl _)⟩
  exact List.eq_of_perm_of_sorted hperm hslt hD

/-- The batched, index-sorted implementation agrees with the
order-preserving per-record map, for every positive batch size. -/
theorem analyzeSentiment_some_eq_spec (m : SModel) (bs : Nat) (hbs : 1 ≤ bs)
    (posts : List Dict) :
    analyzeSentiment (some m) bs posts = analyzeSentimentSpec m posts := by
  show (sortByIndex ((splitPosts 0 posts).1 ++
      batchChunks m bs (splitPosts 0 posts).2.2.length
        (splitPosts 0 posts).2.2 (splitPosts 0 posts).2.1)).map (fun p => dpop p "index") =
    analyzeSentimentSpec m posts
  rw [sortByIndex_processed_eq m bs hbs posts]
  rfl

theorem directTagged_length (m : SModel) (i : Nat) (posts : List Dict) :
    (directTagged m i posts).length = posts.length := by
  induction posts generalizing i with
  | nil => rfl
  | cons p ps ih => simp [directTagged, ih]

theorem analyzeSentimentSpec_length (m : SModel) (posts : List Dict) :
    (analyzeSentimentSpec m posts).length = posts.length := by
  simp [analyzeSentimentSpec, directTagged_length]

theorem directTagged_getD (m : SModel) (i j : Nat) (posts : List Dict)
    (hj : j < posts.length) :
    (directTagged m i posts).getD j [] = enrichTagged m (i + j) (posts.getD j []) := by
  induction posts generalizing i j with
  | nil => simp at hj
  | cons p ps ih =>
    cases j with
    | zero => simp [directTagged]
    | succ j =>
      have hj' : j < ps.length := by simpa using hj
      have hrec := ih (i + 1) j hj'
      show (directTagged m (i + 1) ps).getD j [] = _
      rw [hrec]
      congr 1
      omega

theorem analyzeSentimentSpec_getD (m : SModel) (j : Nat) (posts : List Dict)
    (hj : j < posts.length) :
    (analyzeSentimentSpec m posts).getD j [] =
      dpop (enrichTagged m j (posts.getD j [])) "index" := by
  unfold analyzeSentimentSpec
  rw [getD_map_of_lt (fun p => dpop p "index") _ j
    (by rw [directTagged_length]; exact hj) [] []]
  rw [directTagged_getD m 0 j posts hj]
  simp

theorem mem_directTagged (m : SModel) (i : Nat) (posts : List Dict) (d : Dict)
    (hd : d ∈ directTagged m i posts) :
    ∃ j p, p ∈ posts ∧ d = enrichTagged m j p := by
  induction posts generalizing i with
  | nil => simp [directTagged] at hd
  | cons p ps ih =>
    rw [directTagged] at hd
    rcases List.mem_cons.mp hd with rfl | hd
    · exact ⟨i, p, List.mem_cons_self _ _, rfl⟩
    · obtain ⟨j, q, hq, hdq⟩ := ih (i + 1) hd
      exact ⟨j, q, List.mem_cons_of_mem _ hq, hdq⟩

/-! ## Field access through the enriched records -/

theorem dget?_dpop_enrich_sentinel (p : Dict) (i : Nat) :
    dget? (dpop (sentinelTag p i) "index") "sentiment" = some (.str "처리불가") ∧
    dget? (dpop (sentinelTag p i) "index") "score" = some (.rat 0) := by
  unfold sentinelTag
  constructor
  · rw [dget?_dpop_ne _ (by decide : ("sentiment" : String) ≠ "index"),
      dget?_dset_ne _ _ (by decide : ("sentiment" : String) ≠ "index"),
      dget?_dset_ne _ _ (by decide : ("sentiment" : String) ≠ "score"),
      dget?_dset_self]
  · rw [dget?_dpop_ne _ (by decide : ("score" : String) ≠ "index"),
      dget?_dset_ne _ _ (by decide : ("score" : String) ≠ "index"),
      dget?_dset_self]

theorem dget?_dpop_enrich_valid (p : Dict) (i : Nat) (r : String × Rat) :
    dget? (dpop (combineResult (dset p "index" (.int i)) r) "index") "sentiment" =
      some (.str r.1) ∧
    dget? (dpop (combineResult (dset p "index" (.int i)) r) "index") "score" =
      some (.rat r.2) := by
  unfold combineResult
  constructor
  · rw [dget?_dpop_ne _ (by decide : ("sentiment" : String) ≠ "index"),
      dget?_dset_ne _ _ (by decide : ("sentiment" : String) ≠ "score"),
      dget?_dset_self]
  · rw [dget?_dpop_ne _ (by decide : ("score" : String) ≠ "index"),
      dget?_dset_self]

theorem classifySentiment_label_mem (scores : Scores) :
    (classifySentiment scores).1 ∈
      (["긍정", "중립", "부정", "처리불가", "오류", "알 수 없음"] : List String) := by
  unfold classifySentiment
  cases scores with
  | nil => decide
  | cons s rest =>
    by_cases h : (pyMaxByScore s rest).2 < neutralThreshold
    · simp [h]
    · simp only [h, if_false]
      unfold labelKorean
      split_ifs <;> simp

/-! ## Claim C5: batch-size invariance and order preservation -/

/-- C5: on well-formed record lists the sentiment stage returns a list of
the same length with the records in input order (it equals the
order-preserving per-record map `analyzeSentimentSpec`), and the result is
identical for all positive batch sizes. -/
theorem c5_sentiment_batch_invariance (m : SModel) (posts : List Dict)
    (bs bs' : Nat) (hbs : 1 ≤ bs) (hbs' : 1 ≤ bs') (hwf : SentWF posts) :
    analyzeSentiment (some m) bs posts = analyzeSentiment (some m) bs' posts ∧
    (analyzeSentiment (some m) bs posts).length = posts.length ∧
    analyzeSentiment (some m) bs posts = analyzeSentimentSpec m posts := by
  refine ⟨?_, ?_, analyzeSentiment_some_eq_spec m bs hbs posts⟩
  · rw [analyzeSentiment_some_eq_spec m bs hbs posts,
      analyzeSentiment_some_eq_spec m bs' hbs' posts]
  · rw [analyzeSentiment_some_eq_spec m bs hbs posts]
    exact analyzeSentimentSpec_length m posts

theorem c5_witness :
    (1 ≤ 1 ∧ 1 ≤ 3 ∧
      SentWF [[("cleaned_caption", PyVal.str "오늘 정말 좋았다")],
        [("cleaned_caption", PyVal.str "")],
        [("cleaned_caption", PyVal.str "그냥 평범한 하루")]]) ∧
    (analyzeSentiment (some (fun _ => [("LABEL_1", mkRat 8 10)])) 1
        [[("cleaned_caption", PyVal.str "오늘 정말 좋았다")],
          [("cleaned_caption", PyVal.str "")],
          [("cleaned_caption", PyVal.str "그냥 평범한 하루")]] =
      analyzeSentiment (some (fun _ => [("LABEL_1", mkRat 8 10)])) 3
        [[("cleaned_caption", PyVal.str "오늘 정말 좋았다")],
          [("cleaned_caption", PyVal.str "")],
          [("cleaned_caption", PyVal.str "그냥 평범한 하루")]] ∧
      (analyzeSentiment (some (fun _ => [("LABEL_1", mkRat 8 10)])) 1
        [[("cleaned_caption", PyVal.str "오늘 정말 좋았다")],
          [("cleaned_caption", PyVal.str "")],
          [("cleaned_caption", PyVal.str "그냥 평범한 하루")]]).length = 3 ∧
      analyzeSentiment (some (fun _ => [("LABEL_1", mkRat 8 10)])) 1
        [[("cleaned_caption", PyVal.str "오늘 정말 좋았다")],
          [("cleaned_caption", PyVal.str "")],
          [("cleaned_caption", PyVal.str "그냥 평범한 하루")]] =
      analyzeSentimentSpec (fun _ => [("LABEL_1", mkRat 8 10)])
        [[("cleaned_caption", PyVal.str "오늘 정말 좋았다")],
          [("cleaned_caption", PyVal.str "")],
          [("cleaned_caption", PyVal.str "그냥 평범한 하루")]]) :=
  ⟨⟨by decide, by decide, by decide⟩,
    c5_sentiment_batch_invariance (fun _ => [("LABEL_1", mkRat 8 10)])
      [[("cleaned_caption", PyVal.str "오늘 정말 좋았다")],
        [("cleaned_caption", PyVal.str "")],
        [("cleaned_caption", PyVal.str "그냥 평범한 하루")]]
      1 3 (by decide) (by decide) (by decide)⟩

/-! ## Claim C1: the set of sentiment values -/

/-- C1 (counterexample): a raw model output whose top-scoring label is not
one of the four mapped label strings yields the sixth value `알 수 없음`
(unknown), not one of the five claimed values. -/
theorem c1_counterexample :
    dget? ((analyzeSentiment
        (some (fun _ => [("LABEL_0", mkRat 1 10), ("LABEL_1", mkRat 2 10),
          ("LABEL_2", mkRat 7 10)])) 8
        [[("cleaned_caption", PyVal.str "그냥 평범한 하루")]]).getD 0 [])
      "sentiment" = some (.str "알 수 없음") ∧
    ("알 수 없음" : String) ∉
      (["긍정", "중립", "부정", "처리불가", "오류"] : List String) :=
  ⟨by decide, by decide⟩

/-- C1 (amended): after the sentiment stage every record's `sentiment`
value lies in the six-element set — the five claimed values plus
`알 수 없음` (unknown), the `classify_sentiment` fallback for an empty
score list or an unmapped top label. -/
theorem c1_amended_sentiment_value_set (m : SModel) (bs : Nat) (posts : List Dict)
    (hbs : 1 ≤ bs) (hwf : SentWF posts) (d : Dict)
    (hd : d ∈ analyzeSentiment (some m) bs posts) :
    ∃ s, dget? d "sentiment" = some (.str s) ∧
      s ∈ (["긍정", "중립", "부정", "처리불가", "오류", "알 수 없음"] : List String) := by
  rw [analyzeSentiment_some_eq_spec m bs hbs posts] at hd
  unfold analyzeSentimentSpec at hd
  obtain ⟨e, he, rfl⟩ := List.mem_map.mp hd
  obtain ⟨j, p, _, rfl⟩ := mem_directTagged m 0 posts e he
  unfold enrichTagged
  split
  · exact ⟨"처리불가", (dget?_dpop_enrich_sentinel p j).1, by decide⟩
  · exact ⟨(classifySentiment (m (preprocessText (getCleanedCaption p)))).1,
      (dget?_dpop_enrich_valid p j _).1,
      classifySentiment_label_mem _⟩

theorem c1_witness :
    (1 ≤ 8 ∧ SentWF [[("cleaned_caption", PyVal.str "그냥 평범한 하루")]] ∧
      ([("cleaned_caption", PyVal.str "그냥 평범한 하루"),
          ("sentiment", PyVal.str "긍정"), ("score", PyVal.rat (mkRat 8 10))] : Dict) ∈
        analyzeSentiment (some (fun _ => [("LABEL_1", mkRat 8 10)])) 8
          [[("cleaned_caption", PyVal.str "그냥 평범한 하루")]]) ∧
    (∃ s, dget? ([("cleaned_caption", PyVal.str "그냥 평범한 하루"),
        ("sentiment", PyVal.str "긍정"), ("score", PyVal.rat (mkRat 8 10))] : Dict)
        "sentiment" = some (.str s) ∧
      s ∈ (["긍정", "중립", "부정", "처리불가", "오류", "알 수 없음"] : List String)) :=
  ⟨⟨by decide, by decide, by decide⟩,
    c1_amended_sentiment_value_set (fun _ => [("LABEL_1", mkRat 8 10)]) 8
      [[("cleaned_caption", PyVal.str "그냥 평범한 하루")]] (by decide) (by decide)
      [("cleaned_caption", PyVal.str "그냥 평범한 하루"),
        ("sentiment", PyVal.str "긍정"), ("score", PyVal.rat (mkRat 8 10))]
      (by decide)⟩

/-! ## Claim C2: monotonic field growth -/

theorem fieldGrowth_dset (p : Dict) (k : String) (v : PyVal) :
    fieldGrowth p (dset p k v) :=
  fun k' hk' _ => mem_dkeys_dset p k k' v hk'

theorem fieldGrowth_enrich (m : SModel) (i : Nat) (p : Dict) :
    fieldGrowth p (dpop (enrichTagged m i p) "index") := by
  intro k hk hkne
  refine mem_dkeys_dpop _ ?_ hkne
  unfold enrichTagged
  split
  · exact mem_dkeys_dset _ _ _ _ (mem_dkeys_dset _ _ _ _ (mem_dkeys_dset _ _ _ _ hk))
  · exact mem_dkeys_dset _ _ _ _ (mem_dkeys_dset _ _ _ _ (mem_dkeys_dset _ _ _ _ hk))

theorem forall2_of_map {α : Type} (R : α → α → Prop) (f : α → α) (l : List α)
    (h : ∀ a, R a (f a)) : List.Forall₂ R l (l.map f) := by
  induction l with
  | nil => exact List.Forall₂.nil
  | cons a as ih => exact List.Forall₂.cons (h a) ih

theorem forall2_fieldGrowth_directTagged (m : SModel) (i : Nat) (posts : List Dict) :
    List.Forall₂ fieldGrowth posts
      ((directTagged m i posts).map (fun p => dpop p "index")) := by
  induction posts generalizing i with
  | nil => exact List.Forall₂.nil
  | cons p ps ih =>
    exact List.Forall₂.cons (fieldGrowth_enrich m i p) (ih (i + 1))

/-- C2 (counterexample): the sentiment stage deletes a pre-existing
`index` field — present on entry, absent on exit — so the field set after
the stage is not a superset of the field set before it. -/
theorem c2_counterexample :
    ("index" ∈ dkeys ([("caption", PyVal.str "좋은 하루"),
        ("cleaned_caption", PyVal.str "좋은 하루였다"),
        ("index", PyVal.int 99)] : Dict)) ∧
    ("index" ∉ dkeys ((analyzeSentiment (some (fun _ => [("LABEL_1", mkRat 9 10)])) 8
        [[("caption", PyVal.str "좋은 하루"),
          ("cleaned_caption", PyVal.str "좋은 하루였다"),
          ("index", PyVal.int 99)]]).getD 0 [])) :=
  ⟨by decide, by decide⟩

/-- C2 (amended): for every record and every stage, every field present on
entry other than the reserved transient field `index` is still present on
exit (the sentiment stage overwrites and then deletes `index`; stages may
also overwrite the values of their own output fields `cleaned_caption`,
`sentiment`, `score` and `keywords`, but never drop them). -/
theorem c2_amended_field_growth (m : SModel) (km : KModel) (bs tn : Nat)
    (posts : List Dict) (hbs : 1 ≤ bs) (hwf : SentWF posts) :
    List.Forall₂ fieldGrowth posts (cleanCaptions posts) ∧
    List.Forall₂ fieldGrowth posts (analyzeSentiment (some m) bs posts) ∧
    List.Forall₂ fieldGrowth posts (extractKeywords (some km) tn posts) := by
  refine ⟨?_, ?_, ?_⟩
  · exact forall2_of_map _ _ _ (fun p => fieldGrowth_dset p _ _)
  · rw [analyzeSentiment_some_eq_spec m bs hbs posts]
    exact forall2_fieldGrowth_directTagged m 0 posts
  · refine forall2_of_map _ _ _ (fun p => ?_)
    unfold extractOne
    split
    · split
      · exact fieldGrowth_dset p _ _
      · exact fieldGrowth_dset p _ _
    · exact fieldGrowth_dset p _ _

theorem c2_witness :
    (1 ≤ 2 ∧ SentWF [[("caption", PyVal.str "좋은 하루"),
        ("cleaned_caption", PyVal.str "좋은 하루였다")]]) ∧
    (List.Forall₂ fieldGrowth
        [[("caption", PyVal.str "좋은 하루"),
          ("cleaned_caption", PyVal.str "좋은 하루였다")]]
        (cleanCaptions [[("caption", PyVal.str "좋은 하루"),
          ("cleaned_caption", PyVal.str "좋은 하루였다")]]) ∧
      List.Forall₂ fieldGrowth
        [[("caption", PyVal.str "좋은 하루"),
          ("cleaned_caption", PyVal.str "좋은 하루였다")]]
        (analyzeSentiment (some (fun _ => [("LABEL_1", mkRat 9 10)])) 2
          [[("caption", PyVal.str "좋은 하루"),
            ("cleaned_caption", PyVal.str "좋은 하루였다")]]) ∧
      List.Forall₂ fieldGrowth
        [[("caption", PyVal.str "좋은 하루"),
          ("cleaned_caption", PyVal.str "좋은 하루였다")]]
        (extractKeywords (some (fun _ _ => [("하루", mkRat 9 10)])) 3
          [[("caption", PyVal.str "좋은 하루"),
            ("cleaned_caption", PyVal.str "좋은 하루였다")]])) :=
  ⟨⟨by decide, by decide⟩,
    c2_amended_field_growth (fun _ => [("LABEL_1", mkRat 9 10)])
      (fun _ _ => [("하루", mkRat 9 10)]) 2 3
      [[("caption", PyVal.str "좋은 하루"),
        ("cleaned_caption", PyVal.str "좋은 하루였다")]] (by decide) (by decide)⟩

/-! ## Claim C4: sentinel correctness for empty cleaned captions -/

/-- C4: every record whose `cleaned_caption` is the empty string or
whitespace-only comes out of the sentiment stage with
`sentiment = 처리불가` and `score = 0.0`, and out of the following keyword
stage with `keywords = []`; and the caption `"12345"` cleans to `""`. -/
theorem c4_sentinel_empty_caption (m : SModel) (km : KModel) (bs tn j : Nat)
    (posts : List Dict) (s : String) (hbs : 1 ≤ bs) (hwf : SentWF posts)
    (hj : j < posts.length)
    (hcc : dget? (posts.getD j []) "cleaned_caption" = some (PyVal.str s))
    (hempty : stripStr s = "") :
    dget? ((analyzeSentiment (some m) bs posts).getD j []) "sentiment" =
      some (.str "처리불가") ∧
    dget? ((analyzeSentiment (some m) bs posts).getD j []) "score" =
      some (.rat 0) ∧
    dget? ((extractKeywords (some km) tn
        (analyzeSentiment (some m) bs posts)).getD j []) "keywords" =
      some (.strList []) ∧
    cleanCaptionStr "12345" = "" := by
  have hcap : getCleanedCaption (posts.getD j []) = s := by
    unfold getCleanedCaption
    rw [hcc]
  have hgate : (getCleanedCaption (posts.getD j []) = "" ||
      stripStr (getCleanedCaption (posts.getD j [])) = "") = true := by
    rw [hcap]
    simp [hempty]
  have hout : (analyzeSentiment (some m) bs posts).getD j [] =
      dpop (sentinelTag (posts.getD j []) j) "index" := by
    rw [analyzeSentiment_some_eq_spec m bs hbs posts,
      analyzeSentimentSpec_getD m j posts hj]
    unfold enrichTagged
    rw [if_pos hgate]
  have hlen : j < (analyzeSentiment (some m) bs posts).length := by
    rw [analyzeSentiment_some_eq_spec m bs hbs posts, analyzeSentimentSpec_length]
    exact hj
  have hkw : (extractKeywords (some km) tn
      (analyzeSentiment (some m) bs posts)).getD j [] =
      extractOne km tn ((analyzeSentiment (some m) bs posts).getD j []) := by
    simpa [extractKeywords] using
      getD_map_of_lt (extractOne km tn) (analyzeSentiment (some m) bs posts) j hlen [] []
  refine ⟨?_, ?_, ?_, by decide⟩
  · rw [hout]
    exact (dget?_dpop_enrich_sentinel _ j).1
  · rw [hout]
    exact (dget?_dpop_enrich_sentinel _ j).2
  · rw [hkw, hout]
    have hccs : dget? (dpop (sentinelTag (posts.getD j []) j) "index")
        "cleaned_caption" = some (PyVal.str s) := by
      unfold sentinelTag
      rw [dget?_dpop_ne _ (by decide : ("cleaned_caption" : String) ≠ "index"),
        dget?_dset_ne _ _ (by decide : ("cleaned_caption" : String) ≠ "index"),
        dget?_dset_ne _ _ (by decide : ("cleaned_caption" : String) ≠ "score"),
        dget?_dset_ne _ _ (by decide : ("cleaned_caption" : String) ≠ "sentiment"),
        hcc]
    have hkt : kwText (dpop (sentinelTag (posts.getD j []) j) "index") =
        PyVal.str s := by
      unfold kwText
      rw [hccs]
    have hstriplen : pyStrip s.data = [] := by
      have := congrArg String.data hempty
      simpa [stripStr] using this
    unfold extractOne
    simp only [hkt]
    rw [if_pos (by simp [hstriplen])]
    exact dget?_dset_self _ _ _

theorem c4_witness :
    (1 ≤ 1 ∧ SentWF [[("caption", PyVal.str "12345"), ("cleaned_caption", PyVal.str "")]] ∧
      0 < 1 ∧
      dget? (([[("caption", PyVal.str "12345"), ("cleaned_caption", PyVal.str "")]] :
          List Dict).getD 0 []) "cleaned_caption" = some (PyVal.str "") ∧
      stripStr "" = "") ∧
    (dget? ((analyzeSentiment (some (fun _ => [("LABEL_1", mkRat 9 10)])) 1
        [[("caption", PyVal.str "12345"), ("cleaned_caption", PyVal.str "")]]).getD 0 [])
        "sentiment" = some (.str "처리불가") ∧
      dget? ((analyzeSentiment (some (fun _ => [("LABEL_1", mkRat 9 10)])) 1
        [[("caption", PyVal.str "12345"), ("cleaned_caption", PyVal.str "")]]).getD 0 [])
        "score" = some (.rat 0) ∧
      dget? ((extractKeywords (some (fun _ _ => [("여행", mkRat 9 10)])) 3
        (analyzeSentiment (some (fun _ => [("LABEL_1", mkRat 9 10)])) 1
          [[("caption", PyVal.str "12345"), ("cleaned_caption", PyVal.str "")]])).getD 0 [])
        "keywords" = some (.strList []) ∧
      cleanCaptionStr "12345" = "") :=
  ⟨⟨by decide, by decide, by decide, by decide, by decide⟩,
    c4_sentinel_empty_caption (fun _ => [("LABEL_1", mkRat 9 10)])
      (fun _ _ => [("여행", mkRat 9 10)]) 1 3 0
      [[("caption", PyVal.str "12345"), ("cleaned_caption", PyVal.str "")]] ""
      (by decide) (by decide) (by decide) (by decide) (by decide)⟩

/-! ## Idempotence machinery for the cleaner (claim C6) -/

theorem noTriple_tail {isR : Char → Bool} {a : Char} {l : List Char}
    (h : noTriple isR (a :: l)) : noTriple isR l := by
  match l with
  | [] => trivial
  | [x] => trivial
  | x :: y :: rest => exact h.2

theorem noTriple_cons_of_not {isR : Char → Bool} {a : Char} {l : List Char}
    (ha : isR a = false) (h : noTriple isR l) : noTriple isR (a :: l) := by
  match l with
  | [] => trivial
  | [x] => trivial
  | x :: y :: rest =>
    exact ⟨fun hb => by simp [hb.2.2] at ha, h⟩

theorem noTriple_cons_of_head_ne {isR : Char → Bool} {a : Char} {l : List Char}
    (hh : ∀ w, l.head? = some w → w ≠ a) (h : noTriple isR l) :
    noTriple isR (a :: l) := by
  match l with
  | [] => trivial
  | [x] => trivial
  | x :: y :: rest =>
    exact ⟨fun hb => (hh x rfl) hb.1.symm, h⟩

theorem noTriple_append_left {isR : Char → Bool} :
    ∀ {a b : List Char}, noTriple isR (a ++ b) → noTriple isR a
  | [], _, _ => trivial
  | [_], _, _ => trivial
  | [_, _], _, _ => trivial
  | x :: y :: z :: rest, b, h =>
    ⟨h.1, noTriple_append_left (a := y :: z :: rest) (b := b) h.2⟩

theorem noTriple_append_right {isR : Char → Bool} :
    ∀ {a b : List Char}, noTriple isR (a ++ b) → noTriple isR b
  | [], _, h => h
  | x :: a', b, h => noTriple_append_right (a := a') (noTriple_tail h)

theorem noTriple_dropWhile {isR : Char → Bool} (p : Char → Bool) :
    ∀ {l : List Char}, noTriple isR l → noTriple isR (l.dropWhile p)
  | [], _ => trivial
  | c :: cs, h => by
    by_cases hp : p c
    · rw [List.dropWhile_cons_of_pos hp]
      exact noTriple_dropWhile p (noTriple_tail h)
    · rwa [List.dropWhile_cons_of_neg hp]

theorem noDouble_tail {a : Char} {l : List Char}
    (h : noDoubleSpace (a :: l)) : noDoubleSpace l := by
  match l with
  | [] => trivial
  | x :: rest => exact h.2

theorem noDouble_cons {a : Char} {l : List Char}
    (hh : ∀ w, l.head? = some w → ¬(isSpacePy a = true ∧ isSpacePy w = true))
    (h : noDoubleSpace l) : noDoubleSpace (a :: l) := by
  match l with
  | [] => trivial
  | x :: rest => exact ⟨hh x rfl, h⟩

theorem noDouble_append_left :
    ∀ {a b : List Char}, noDoubleSpace (a ++ b) → noDoubleSpace a
  | [], _, _ => trivial
  | [_], _, _ => trivial
  | x :: y :: rest, b, h =>
    ⟨h.1, noDouble_append_left (a := y :: rest) (b := b) h.2⟩

theorem noDouble_dropWhile (p : Char → Bool) :
    ∀ {l : List Char}, noDoubleSpace l → noDoubleSpace (l.dropWhile p)
  | [], _ => trivial
  | c :: cs, h => by
    by_cases hp : p c
    · rw [List.dropWhile_cons_of_pos hp]
      exact noDouble_dropWhile p (noDouble_tail h)
    · rwa [List.dropWhile_cons_of_neg hp]

theorem dropTrailingSpace_eq_append :
    ∀ l : List Char, ∃ suffix, l = dropTrailingSpace l ++ suffix
  | [] => ⟨[], rfl⟩
  | c :: cs => by
    obtain ⟨suffix, hs⟩ := dropTrailingSpace_eq_append cs
    match hr : dropTrailingSpace cs with
    | [] =>
      rw [hr] at hs
      by_cases hc : isSpacePy c
      · exact ⟨c :: cs, by simp [dropTrailingSpace, hr, hc]⟩
      · exact ⟨cs, by simp [dropTrailingSpace, hr, hc]⟩
    | r :: rs =>
      rw [hr] at hs
      refine ⟨suffix, ?_⟩
      have : dropTrailingSpace (c :: cs) = c :: r :: rs := by
        rw [dropTrailingSpace, hr]
      rw [this, hs]
      simp

theorem noTriple_dropTrailing {isR : Char → Bool} {l : List Char}
    (h : noTriple isR l) : noTriple isR (dropTrailingSpace l) := by
  obtain ⟨suffix, hs⟩ := dropTrailingSpace_eq_append l
  rw [hs] at h
  exact noTriple_append_left h

theorem noDouble_dropTrailing {l : List Char}
    (h : noDoubleSpace l) : noDoubleSpace (dropTrailingSpace l) := by
  obtain ⟨suffix, hs⟩ := dropTrailingSpace_eq_append l
  rw [hs] at h
  exact noDouble_append_left h

theorem mem_dropTrailing {c : Char} {l : List Char}
    (h : c ∈ dropTrailingSpace l) : c ∈ l := by
  obtain ⟨suffix, hs⟩ := dropTrailingSpace_eq_append l
  rw [hs]
  exact List.mem_append_left _ h

theorem mem_pyStrip {c : Char} {l : List Char} (h : c ∈ pyStrip l) : c ∈ l :=
  (List.dropWhile_sublist isSpacePy).subset (mem_dropTrailing h)

theorem mem_wsGo {c : Char} :
    ∀ {b : Bool} {l : List Char}, c ∈ wsGo b l → c ∈ l ∨ c = ' '
  | _, [], h => by simp [wsGo] at h
  | b, d :: ds, h => by
    by_cases hd : isSpacePy d
    · rw [wsGo, if_pos hd] at h
      cases b with
      | true =>
        rcases mem_wsGo h with hc | hc
        · exact Or.inl (List.mem_cons_of_mem _ hc)
        · exact Or.inr hc
      | false =>
        rcases List.mem_cons.mp h with rfl | h
        · exact Or.inr rfl
        · rcases mem_wsGo h with hc | hc
          · exact Or.inl (List.mem_cons_of_mem _ hc)
          · exact Or.inr hc
    · rw [wsGo, if_neg hd] at h
      rcases List.mem_cons.mp h with rfl | h
      · exact Or.inl (List.mem_cons_self _ _)
      · rcases mem_wsGo h with hc | hc
        · exact Or.inl (List.mem_cons_of_mem _ hc)
        · exact Or.inr hc

theorem mem_crGo {c : Char} {isR : Char → Bool} {k : Nat} :
    ∀ {cur : Char} {cnt : Nat} {l : List Char},
      c ∈ crGo isR k cur cnt l → c = cur ∨ c ∈ l
  | cur, cnt, [], h => by
    rw [crGo] at h
    unfold flushRun at h
    split at h <;> exact Or.inl (List.eq_of_mem_replicate h)
  | cur, cnt, d :: ds, h => by
    rw [crGo] at h
    by_cases hd : (d == cur) = true
    · rw [if_pos hd] at h
      rcases mem_crGo h with hc | hc
      · exact Or.inl hc
      · exact Or.inr (List.mem_cons_of_mem _ hc)
    · rw [if_neg hd] at h
      rcases List.mem_append.mp h with hc | hc
      · unfold flushRun at hc
        split at hc <;> exact Or.inl (List.eq_of_mem_replicate hc)
      · rcases mem_crGo hc with hc' | hc'
        · exact Or.inr (hc' ▸ List.mem_cons_self _ _)
        · exact Or.inr (List.mem_cons_of_mem _ hc')

theorem mem_collapseRuns {c : Char} {isR : Char → Bool} {k : Nat} {l : List Char}
    (h : c ∈ collapseRuns isR k l) : c ∈ l := by
  match l with
  | [] => simpa [collapseRuns] using h
  | d :: ds =>
    rw [collapseRuns] at h
    rcases mem_crGo h with hc | hc
    · exact hc ▸ List.mem_cons_self _ _
    · exact List.mem_cons_of_mem _ hc

theorem subMarkGo_false_eq_self {mark : Char} :
    ∀ {l : List Char}, (∀ c ∈ l, c ≠ mark) → subMarkGo mark false l = l
  | [], _ => rfl
  | c :: cs, h => by
    have hc : (c == mark) = false := by
      simp [h c (List.mem_cons_self _ _)]
    rw [subMarkGo, hc]
    simp only [Bool.false_and, Bool.false_eq_true, if_false]
    exact congrArg (c :: ·) (subMarkGo_false_eq_self (fun d hd => h d (List.mem_cons_of_mem _ hd)))

theorem subMark_eq_self {mark : Char} {l : List Char}
    (h : ∀ c ∈ l, c ≠ mark) : subMark mark l = l :=
  subMarkGo_false_eq_self h

theorem wsGo_head_not_space :
    ∀ {l : List Char} {w : Char}, (wsGo true l).head? = some w → isSpacePy w = false
  | [], w, h => by simp [wsGo] at h
  | d :: ds, w, h => by
    by_cases hd : isSpacePy d
    · rw [wsGo, if_pos hd] at h
      exact wsGo_head_not_space h
    · rw [wsGo, if_neg hd] at h
      cases h
      simpa using hd

theorem wsGo_true_eq_false_of_head {l : List Char}
    (h : ∀ w, l.head? = some w → isSpacePy w = false) :
    wsGo true l = wsGo false l := by
  match l with
  | [] => rfl
  | d :: ds =>
    have hd := h d rfl
    rw [wsGo, wsGo, if_neg (by simp [hd]), if_neg (by simp [hd])]

theorem wsGo_false_eq_self :
    ∀ {l : List Char}, (∀ c ∈ l, isSpacePy c = true → c = ' ') →
      noDoubleSpace l → wsGo false l = l
  | [], _, _ => rfl
  | c :: cs, hs, hd => by
    by_cases hc : isSpacePy c
    · have hc' : c = ' ' := hs c (List.mem_cons_self _ _) hc
      rw [wsGo, if_pos hc]
      have hcs : wsGo true cs = wsGo false cs := by
        refine wsGo_true_eq_false_of_head (fun w hw => ?_)
        match cs, hw with
        | w :: rest, rfl =>
          rcases hd with ⟨hpair, _⟩
          by_contra hwsp
          exact hpair ⟨hc, by simpa using hwsp⟩
      rw [hcs, wsGo_false_eq_self (fun d hdm hdsp => hs d (List.mem_cons_of_mem _ hdm) hdsp)
        (noDouble_tail hd), hc']
      simp
    · rw [wsGo, if_neg hc]
      rw [wsGo_false_eq_self (fun d hdm hdsp => hs d (List.mem_cons_of_mem _ hdm) hdsp)
        (noDouble_tail hd)]

theorem noTriple_of_triple_head {isR : Char → Bool} {a : Char} {rest : List Char}
    (h : noTriple isR (a :: a :: a :: rest)) : isR a = false := by
  by_contra hr
  exact h.1 ⟨rfl, rfl, by simpa using hr⟩

theorem isR_false_of_noTriple_rep {isR : Char → Bool} {cur : Char} {X : List Char}
    {m : Nat} (h : noTriple isR (List.replicate (m + 3) cur ++ X)) :
    isR cur = false := by
  rw [Nat.add_comm m 3, List.replicate_add] at h
  have h3 : List.replicate 3 cur = [cur, cur, cur] := rfl
  rw [h3] at h
  simp only [List.cons_append, List.append_assoc] at h
  exact noTriple_of_triple_head h

theorem crGo_eq_replicate_append {isR : Char → Bool} {k : Nat} :
    ∀ {rest : List Char} {cur : Char} {cnt : Nat}, 1 ≤ cnt →
      noTriple isR (List.replicate cnt cur ++ rest) →
      crGo isR k cur cnt rest = List.replicate cnt cur ++ rest
  | [], cur, cnt, hcnt, h => by
    rw [crGo]
    unfold flushRun
    have hle : isR cur = true → cnt ≤ 2 := by
      intro hr
      by_contra hgt
      push_neg at hgt
      obtain ⟨m, rfl⟩ : ∃ m, cnt = m + 3 := ⟨cnt - 3, by omega⟩
      simp [isR_false_of_noTriple_rep h] at hr
    split
    · rename_i hcond
      simp only [Bool.and_eq_true, decide_eq_true_eq] at hcond
      have := hle hcond.1
      omega
    · simp
  | d :: ds, cur, cnt, hcnt, h => by
    rw [crGo]
    by_cases hd : (d == cur) = true
    · have hdc : d = cur := by simpa using hd
      subst hdc
      rw [if_pos hd]
      have harr : List.replicate (cnt + 1) d ++ ds =
          List.replicate cnt d ++ d :: ds := by
        rw [List.replicate_succ' (n := cnt)]
        simp
      rw [crGo_eq_replicate_append (by omega) (by rw [harr]; exact h), harr]
    · rw [if_neg hd]
      have hdc : d ≠ cur := by simpa using hd
      have hrest : noTriple isR (d :: ds) := noTriple_append_right (a := List.replicate cnt cur) h
      have hflush : flushRun isR k cur cnt = List.replicate cnt cur := by
        unfold flushRun
        have hle : isR cur = true → cnt ≤ 2 := by
          intro hr
          by_contra hgt
          push_neg at hgt
          obtain ⟨m, rfl⟩ : ∃ m, cnt = m + 3 := ⟨cnt - 3, by omega⟩
          simp [isR_false_of_noTriple_rep h] at hr
        split
        · rename_i hcond
          simp only [Bool.and_eq_true, decide_eq_true_eq] at hcond
          have := hle hcond.1
          omega
        · rfl
      rw [hflush, crGo_eq_replicate_append (le_refl 1) (by simpa using hrest)]
      simp

theorem collapseRuns_eq_self {isR : Char → Bool} {k : Nat} {l : List Char}
    (h : noTriple isR l) : collapseRuns isR k l = l := by
  match l with
  | [] => rfl
  | c :: cs =>
    rw [collapseRuns, crGo_eq_replicate_append (le_refl 1) (by simpa using h)]
    simp

theorem noTriple_cons {isR : Char → Bool} {a : Char} {l : List Char}
    (h : noTriple isR l)
    (hw : ∀ w1 w2 rest, l = w1 :: w2 :: rest → ¬(a = w1 ∧ w1 = w2 ∧ isR a = true)) :
    noTriple isR (a :: l) := by
  match l with
  | [] => trivial
  | [x] => trivial
  | x :: y :: r => exact ⟨hw x y r rfl, h⟩

theorem flushRun_cons (isR : Char → Bool) (k : Nat) (cur : Char) (cnt : Nat)
    (hk : 1 ≤ k) (hcnt : 1 ≤ cnt) :
    ∃ t, flushRun isR k cur cnt = cur :: t := by
  unfold flushRun
  split
  · obtain ⟨k', rfl⟩ : ∃ k', k = k' + 1 := ⟨k - 1, by omega⟩
    exact ⟨_, by rw [List.replicate_succ]⟩
  · obtain ⟨c', rfl⟩ : ∃ c', cnt = c' + 1 := ⟨cnt - 1, by omega⟩
    exact ⟨_, by rw [List.replicate_succ]⟩

theorem crGo_cons (isR : Char → Bool) (k : Nat) (hk : 1 ≤ k) :
    ∀ (rest : List Char) (cur : Char) (cnt : Nat), 1 ≤ cnt →
      ∃ t, crGo isR k cur cnt rest = cur :: t
  | [], cur, cnt, hcnt => by
    rw [crGo]
    exact flushRun_cons isR k cur cnt hk hcnt
  | d :: ds, cur, cnt, hcnt => by
    rw [crGo]
    by_cases hd : (d == cur) = true
    · rw [if_pos hd]
      exact crGo_cons isR k hk ds cur (cnt + 1) (by omega)
    · rw [if_neg hd]
      obtain ⟨t, ht⟩ := flushRun_cons isR k cur cnt hk hcnt
      exact ⟨t ++ crGo isR k d 1 ds, by rw [ht]; simp⟩

theorem noTriple_rep_append {isR : Char → Bool} {a : Char} {m : Nat} {R : List Char}
    (hm : isR a = true → m ≤ 2) (hR : noTriple isR R)
    (hh : ∀ w, R.head? = some w → w ≠ a) :
    noTriple isR (List.replicate m a ++ R) := by
  cases hisR : isR a with
  | false =>
    clear hm
    induction m with
    | zero => simpa using hR
    | succ m ih =>
      rw [List.replicate_succ, List.cons_append]
      exact noTriple_cons_of_not hisR ih
  | true =>
    have hm2 := hm hisR
    interval_cases m
    · simpa using hR
    · have h1 : List.replicate 1 a ++ R = a :: R := by simp
      rw [h1]
      exact noTriple_cons_of_head_ne (fun w hw => hh w hw) hR
    · have h1 : noTriple isR (a :: R) :=
        noTriple_cons_of_head_ne (fun w hw => hh w hw) hR
      have h2 : List.replicate 2 a ++ R = a :: a :: R := by
        simp [List.replicate_succ]
      rw [h2]
      refine noTriple_cons h1 ?_
      intro w1 w2 rest2 heq hbad
      injection heq with hx1 hx2
      exact (hh w2 (by rw [hx2]; rfl)) (hbad.1.trans hbad.2.1).symm

theorem flushRun_eq_replicate (isR : Char → Bool) (k : Nat) (cur : Char) (cnt : Nat) :
    ∃ m, flushRun isR k cur cnt = List.replicate m cur ∧
      (isR cur = true → k ≤ 2 → m ≤ 2) := by
  unfold flushRun
  split
  · exact ⟨k, rfl, fun _ hk => hk⟩
  · rename_i hcond
    refine ⟨cnt, rfl, fun hr _ => ?_⟩
    by_contra hgt
    push_neg at hgt
    exact hcond (by simp [hr]; omega)

theorem crGo_noTriple {isR : Char → Bool} {k : Nat} (hk1 : 1 ≤ k) (hk2 : k ≤ 2) :
    ∀ {rest : List Char} {cur : Char} {cnt : Nat},
      noTriple isR (crGo isR k cur cnt rest)
  | [], cur, cnt => by
    rw [crGo]
    obtain ⟨m, hm, hmle⟩ := flushRun_eq_replicate isR k cur cnt
    rw [hm]
    have hnt : noTriple isR (List.replicate m cur ++ []) :=
      noTriple_rep_append (a := cur) (m := m) (R := [])
        (fun hr => hmle hr hk2) trivial (fun w hw => by simp at hw)
    simpa using hnt
  | d :: ds, cur, cnt => by
    rw [crGo]
    by_cases hd : (d == cur) = true
    · rw [if_pos hd]
      exact crGo_noTriple hk1 hk2
    · rw [if_neg hd]
      obtain ⟨m, hm, hmle⟩ := flushRun_eq_replicate isR k cur cnt
      rw [hm]
      refine noTriple_rep_append (fun hr => hmle hr hk2) (crGo_noTriple hk1 hk2) ?_
      intro w hw
      obtain ⟨t, ht⟩ := crGo_cons isR k hk1 ds d 1 (le_refl 1)
      rw [ht] at hw
      cases hw
      simpa using hd

theorem collapseRuns_noTriple {isR : Char → Bool} {k : Nat} (hk1 : 1 ≤ k)
    (hk2 : k ≤ 2) (l : List Char) : noTriple isR (collapseRuns isR k l) := by
  match l with
  | [] => trivial
  | c :: cs =>
    rw [collapseRuns]
    exact crGo_noTriple hk1 hk2

theorem noTriple_wsGo {isR : Char → Bool}
    (hrep : ∀ c, isR c = true → isSpacePy c = false) :
    ∀ {l : List Char} (b : Bool), noTriple isR l → noTriple isR (wsGo b l)
  | [], b, _ => by
    rw [wsGo]
    trivial
  | c :: cs, b, h => by
    have hsfalse : isR ' ' = false := by
      by_contra hx
      have := hrep ' ' (by simpa using hx)
      exact absurd this (by decide)
    by_cases hc : isSpacePy c
    · rw [wsGo, if_pos hc]
      cases b with
      | true => exact noTriple_wsGo hrep true (noTriple_tail h)
      | false =>
        simp only [Bool.false_eq_true, if_false]
        exact noTriple_cons_of_not hsfalse (noTriple_wsGo hrep true (noTriple_tail h))
    · rw [wsGo, if_neg hc]
      refine noTriple_cons (noTriple_wsGo hrep false (noTriple_tail h)) ?_
      intro w1 w2 rest2 heq hbad
      match cs, heq with
      | d :: ds, heq =>
        by_cases hdsp : isSpacePy d
        · rw [wsGo, if_pos hdsp] at heq
          simp only [Bool.false_eq_true, if_false] at heq
          injection heq with h1 _
          rw [← h1] at hbad
          rw [hbad.1] at hc
          exact hc (by decide)
        · rw [wsGo, if_neg hdsp] at heq
          injection heq with h1 h2
          match ds, h2 with
          | e :: es, h2 =>
            by_cases hesp : isSpacePy e
            · rw [wsGo, if_pos hesp] at h2
              simp only [Bool.false_eq_true, if_false] at h2
              injection h2 with h3 _
              rw [← h1, ← h3] at hbad
              rw [hbad.2.1] at hdsp
              exact hdsp (by decide)
            · rw [wsGo, if_neg hesp] at h2
              injection h2 with h3 _
              rw [← h1, ← h3] at hbad
              exact h.1 hbad

theorem noDouble_wsGo : ∀ {l : List Char} (b : Bool), noDoubleSpace (wsGo b l)
  | [], b => by
    rw [wsGo]
    trivial
  | c :: cs, b => by
    by_cases hc : isSpacePy c
    · rw [wsGo, if_pos hc]
      cases b with
      | true => exact noDouble_wsGo true
      | false =>
        simp only [Bool.false_eq_true, if_false]
        refine noDouble_cons ?_ (noDouble_wsGo true)
        intro w hw hpair
        exact absurd hpair.2 (by simp [wsGo_head_not_space hw])
    · rw [wsGo, if_neg hc]
      refine noDouble_cons ?_ (noDouble_wsGo false)
      intro w hw hpair
      exact absurd hpair.1 (by simp [hc])

theorem wsGo_space_mem :
    ∀ {l : List Char} {b : Bool} {c : Char},
      c ∈ wsGo b l → isSpacePy c = true → c = ' '
  | [], b, c, hmem, _ => by
    rw [wsGo] at hmem
    simp at hmem
  | d :: ds, b, c, hmem, hsp => by
    by_cases hd : isSpacePy d
    · rw [wsGo, if_pos hd] at hmem
      cases b with
      | true => exact wsGo_space_mem hmem hsp
      | false =>
        simp only [Bool.false_eq_true, if_false] at hmem
        rcases List.mem_cons.mp hmem with rfl | hmem
        · rfl
        · exact wsGo_space_mem hmem hsp
    · rw [wsGo, if_neg hd] at hmem
      rcases List.mem_cons.mp hmem with rfl | hmem
      · exact absurd hsp (by simp [hd])
      · exact wsGo_space_mem hmem hsp

theorem dropWhile_self_idem (p : Char → Bool) :
    ∀ l : List Char, List.dropWhile p (List.dropWhile p l) = List.dropWhile p l
  | [] => rfl
  | c :: cs => by
    by_cases hp : p c
    · rw [List.dropWhile_cons_of_pos hp]
      exact dropWhile_self_idem p cs
    · rw [List.dropWhile_cons_of_neg hp, List.dropWhile_cons_of_neg hp]

theorem dropTrailingSpace_idem :
    ∀ l : List Char, dropTrailingSpace (dropTrailingSpace l) = dropTrailingSpace l
  | [] => rfl
  | c :: cs => by
    have ih := dropTrailingSpace_idem cs
    match hr : dropTrailingSpace cs with
    | [] =>
      by_cases hc : isSpacePy c
      · rw [dropTrailingSpace, hr]
        simp [hc, dropTrailingSpace]
      · rw [dropTrailingSpace, hr]
        simp [hc, dropTrailingSpace]
    | r :: rs =>
      have h1 : dropTrailingSpace (c :: cs) = c :: r :: rs := by
        rw [dropTrailingSpace, hr]
      rw [h1, dropTrailingSpace]
      rw [hr] at ih
      rw [ih]

theorem dropWhile_dropTrailing_keep {m : List Char}
    (hm : List.dropWhile isSpacePy m = m) :
    List.dropWhile isSpacePy (dropTrailingSpace m) = dropTrailingSpace m := by
  match m with
  | [] => rfl
  | c :: cs =>
    have hc : isSpacePy c = false := by
      by_contra hx
      have hx' : isSpacePy c = true := by simpa using hx
      rw [List.dropWhile_cons_of_pos hx'] at hm
      have := congrArg List.length hm
      have hle := (List.dropWhile_sublist (l := cs) isSpacePy).length_le
      simp at this
      omega
    rw [dropTrailingSpace]
    match dropTrailingSpace cs with
    | [] =>
      rw [if_neg (by simp [hc])]
      rw [List.dropWhile_cons_of_neg (by simp [hc])]
    | r :: rs =>
      rw [List.dropWhile_cons_of_neg (by simp [hc])]

theorem pyStrip_idem (l : List Char) : pyStrip (pyStrip l) = pyStrip l := by
  unfold pyStrip
  rw [dropWhile_dropTrailing_keep (dropWhile_self_idem isSpacePy l),
    dropTrailingSpace_idem]

theorem wlChar_space : wlChar ' ' = true := by decide

theorem wlChar_no_emoji {c : Char} (h : wlChar c = true) : isEmojiChar c = false := by
  by_contra hx
  have hx' : isEmojiChar c = true := by simpa using hx
  simp only [wlChar, isWordPy, isSpacePy, isHangulSyl, isJamoCons, isJamoVowel,
    isPunctKeep, Bool.or_eq_true, Bool.and_eq_true, decide_eq_true_eq] at h
  simp only [isEmojiChar, Bool.or_eq_true, Bool.and_eq_true, decide_eq_true_eq] at hx'
  omega

theorem wlChar_ne_hash {c : Char} (h : wlChar c = true) : c ≠ '#' := by
  rintro rfl
  exact absurd h (by decide)

theorem wlChar_ne_at {c : Char} (h : wlChar c = true) : c ≠ '@' := by
  rintro rfl
  exact absurd h (by decide)

theorem cleanRep_not_space : ∀ c : Char, cleanRep c = true → isSpacePy c = false := by
  intro c hcr
  simp only [cleanRep, Bool.or_eq_true, beq_iff_eq] at hcr
  rcases hcr with ((((rfl | rfl) | rfl) | rfl) | rfl) | rfl <;> decide

theorem cleanCaptionData_wl {u : List Char} {c : Char}
    (hc : c ∈ cleanCaptionData u) : wlChar c = true := by
  unfold cleanCaptionData at hc
  have h1 := mem_pyStrip hc
  rcases mem_wsGo h1 with h2 | rfl
  · have h3 := mem_collapseRuns h2
    exact List.of_mem_filter h3
  · exact wlChar_space

theorem cleanCaptionData_fix (u : List Char)
    (hurl : subUrl (cleanCaptionData u) = cleanCaptionData u)
    (hdom : subDomain (cleanCaptionData u) = cleanCaptionData u) :
    cleanCaptionData (cleanCaptionData u) = cleanCaptionData u := by
  have hwl : ∀ c ∈ cleanCaptionData u, wlChar c = true := fun c hc =>
    cleanCaptionData_wl hc
  have hnt : noTriple cleanRep (cleanCaptionData u) := by
    unfold cleanCaptionData pyStrip
    exact noTriple_dropTrailing (noTriple_dropWhile _
      (noTriple_wsGo cleanRep_not_space false
        (collapseRuns_noTriple (by omega) (by omega) _)))
  have hshape : ∀ c ∈ cleanCaptionData u, isSpacePy c = true → c = ' ' := by
    intro c hc hsp
    unfold cleanCaptionData at hc
    exact wsGo_space_mem (mem_pyStrip hc) hsp
  have hnd : noDoubleSpace (cleanCaptionData u) := by
    unfold cleanCaptionData pyStrip
    exact noDouble_dropTrailing (noDouble_dropWhile _ (noDouble_wsGo false))
  have hstrip : pyStrip (cleanCaptionData u) = cleanCaptionData u := by
    conv_lhs => rw [cleanCaptionData]
    rw [pyStrip_idem]
    rfl
  conv_lhs => rw [cleanCaptionData]
  rw [subMark_eq_self (fun c hc => wlChar_ne_hash (hwl c hc)),
    subMark_eq_self (fun c hc => wlChar_ne_at (hwl c hc)),
    hurl, hdom]
  have hde : deEmoji (cleanCaptionData u) = cleanCaptionData u := by
    unfold deEmoji
    rw [List.filter_eq_self]
    intro c hc
    simp [wlChar_no_emoji (hwl c hc)]
  have hwf : wlFilter (cleanCaptionData u) = cleanCaptionData u := by
    unfold wlFilter
    rw [List.filter_eq_self]
    exact hwl
  rw [hde, hwf, collapseRuns_eq_self hnt]
  show pyStrip (wsGo false (cleanCaptionData u)) = cleanCaptionData u
  rw [wsGo_false_eq_self hshape hnd, hstrip]

/-- C6 (counterexample): normalization is not idempotent.  On the raw
caption `"www*...."` the whitelist pass deletes `*`, the repetition pass
collapses `....` to `..`, giving `"www.."` — which a second pass deletes
entirely through the `www\.\S+` URL rule, ending at `""`. -/
theorem c6_counterexample :
    cleanCaptionStr (cleanCaptionStr "www*....") ≠ cleanCaptionStr "www*...." := by
  decide

/-- C6 (amended): normalization is idempotent on every input whose
normalized form is left unchanged by a second URL-removal and
domain-removal pass — every other pass is provably the identity on
normalizer output.  (In general a second application can shrink the text
further, because collapsing repeated punctuation or deleting blacklisted
characters can create a new URL-shaped token, as in the counterexample.) -/
theorem c6_amended_normalize_idempotent (s : String)
    (hurl : subUrl (cleanCaptionStr s).data = (cleanCaptionStr s).data)
    (hdom : subDomain (cleanCaptionStr s).data = (cleanCaptionStr s).data) :
    cleanCaptionStr (cleanCaptionStr s) = cleanCaptionStr s := by
  by_cases hs : cleanCaptionStr s = ""
  · rw [hs]
    decide
  · have hsne : s ≠ "" := by
      rintro rfl
      exact hs (by decide)
    have hguards : ¬ (cleanCaptionData s.data).length < 3 ∧
        ¬ isDigitsOnly (cleanCaptionData s.data) = true ∧
        cleanCaptionStr s = String.mk (cleanCaptionData s.data) := by
      unfold cleanCaptionStr at hs ⊢
      rw [if_neg hsne] at hs ⊢
      by_cases h3 : (cleanCaptionData s.data).length < 3
      · rw [if_pos h3] at hs
        exact absurd rfl hs
      · rw [if_neg h3] at hs ⊢
        by_cases hdig : isDigitsOnly (cleanCaptionData s.data) = true
        · rw [if_pos hdig] at hs
          exact absurd rfl hs
        · rw [if_neg hdig] at hs ⊢
          exact ⟨h3, hdig, rfl⟩
    obtain ⟨h3, hdig, hcs⟩ := hguards
    have hdata : (cleanCaptionStr s).data = cleanCaptionData s.data := by
      rw [hcs]
    rw [hdata] at hurl hdom
    have hfix := cleanCaptionData_fix s.data hurl hdom
    have hmkne : String.mk (cleanCaptionData s.data) ≠ "" := by
      intro hmk
      have := congrArg String.data hmk
      simp at this
      rw [this] at h3
      simp at h3
    rw [hcs]
    unfold cleanCaptionStr
    rw [if_neg hmkne]
    have hmkdata : (String.mk (cleanCaptionData s.data)).data =
        cleanCaptionData s.data := rfl
    rw [hmkdata, hfix, if_neg h3, if_neg hdig]

theorem c6_witness :
    (subUrl (cleanCaptionStr "오늘 정말 좋았다").data =
        (cleanCaptionStr "오늘 정말 좋았다").data ∧
      subDomain (cleanCaptionStr "오늘 정말 좋았다").data =
        (cleanCaptionStr "오늘 정말 좋았다").data) ∧
    cleanCaptionStr (cleanCaptionStr "오늘 정말 좋았다") =
      cleanCaptionStr "오늘 정말 좋았다" :=
  ⟨⟨by decide, by decide⟩,
    c6_amended_normalize_idempotent "오늘 정말 좋았다" (by decide) (by decide)⟩
